import Mathlib

/-!
A shallow embedding of the CKB transaction-pool core
(`tx-pool/src/component/{edges,links,pool_map,verify_queue}.rs`,
`tx-pool/src/pool.rs`, `tx-pool/src/pool_cell.rs`) together with proofs
about the claims of the specification.

Modelling conventions:
* `ProposalShortId` and `Byte32` hashes are modelled as `Nat`;
  `ProposalShortId::from_tx_hash` is injective, so it is modelled as the
  identity on the transaction hash.
* Rust `HashMap`/`HashSet` are modelled as association lists / duplicate-free
  lists; `insert` replaces an existing binding, iteration order is list order.
* `Capacity` amounts, sizes, cycles and timestamps are `Nat`; the `u64`
  checked addition `safe_add` is modelled with an explicit `2 ^ 64` bound.
* Fallible operations return `Except Reject`; a Rust `unwrap`/`expect` on a
  pool lookup (unreachable in consistent pools) is modelled as a no-op skip.
-/

/-- An `OutPoint`: a pair (transaction hash, output index). -/
structure OutPoint where
  txHash : Nat
  index : Nat
deriving DecidableEq, Repr

/-- The relevant view of a `TransactionView`: hash, input out-points,
number of outputs, cell-dep out-points and header deps. -/
structure Tx where
  hash : Nat
  inputs : List OutPoint
  outputsLen : Nat
  cellDeps : List OutPoint
  headerDeps : List Nat
deriving DecidableEq, Repr

/-- `output_pts`: the out-points of the transaction's own outputs. -/
def Tx.outputPts (tx : Tx) : List OutPoint :=
  (List.range tx.outputsLen).map (fun i => ⟨tx.hash, i⟩)

/-- `ProposalShortId::from_tx_hash`, modelled as the identity on hashes. -/
def Tx.shortId (tx : Tx) : Nat := tx.hash

/-- Entry status in the pool (`pool_map.rs`, `Status`). -/
inductive Status where
  | pending
  | gap
  | proposed
deriving DecidableEq, Repr

/-- Structured form of the strings the RBF checker builds with `format!`
in `TxPool::check_rbf`; `renderRbfMsg` reproduces the exact text. -/
inductive RbfMsg where
  | unconfirmedInputs
  | tooMany (count maxCandidates : Nat)
  | ancestorsCommon
  | inputsInDescendants
  | cellDepsFromConflicts
  | feeTooLow (fee minReplaceFee : Nat)
  | minFeeFailed
deriving DecidableEq, Repr

/-- The exact message text used by `check_rbf` for each rejection. -/
def renderRbfMsg : RbfMsg → String
  | .unconfirmedInputs => "new Tx contains unconfirmed inputs"
  | .tooMany c m =>
      "Tx conflict with too many txs, conflict txs count: " ++ Nat.repr c ++
        ", expect <= " ++ Nat.repr m
  | .ancestorsCommon => "Tx ancestors have common with conflict Tx descendants"
  | .inputsInDescendants => "new Tx contains inputs in descendants of to be replaced Tx"
  | .cellDepsFromConflicts => "new Tx contains cell deps from conflicts"
  | .feeTooLow f m =>
      "Tx\x27s current fee is " ++ Nat.repr f ++ ", expect it to >= " ++
        Nat.repr m ++ " to replace old txs"
  | .minFeeFailed => "calculate_min_replace_fee failed"

/-- The message of `Reject::Malformed` raised by `gap_rtx` / `proposed_rtx`. -/
def invalidShortIdMsg : String := "invalid short_id"

/-- The `Reject` variants reachable through the embedded operations. -/
inductive Reject where
  | exceededMaximumAncestorsCount
  | duplicated (txHash : Nat)
  | malformed (msg : String)
  | queueFull (txHash : Nat)
  | rbfRejected (msg : RbfMsg)
deriving DecidableEq, Repr

/-- A `TxEntry`. The struct itself lives in `tx-pool/src/component/entry.rs`,
which is not part of the provided sources; its fields are taken from the
spec's data model (transaction, cycles, size, fee, timestamp, ancestor and
descendant aggregates). -/
structure TxEntry where
  tx : Tx
  cycles : Nat
  size : Nat
  fee : Nat
  timestamp : Nat
  ancestorsCount : Nat
  ancestorsSize : Nat
  ancestorsFee : Nat
  ancestorsCycles : Nat
  descendantsCount : Nat
  descendantsSize : Nat
  descendantsFee : Nat
deriving DecidableEq, Repr

/-- Modelled from the spec: a freshly created `TxEntry` has self-only
aggregates (count 1, own size/fee/cycles). -/
def TxEntry.mkSelf (tx : Tx) (cycles size fee timestamp : Nat) : TxEntry :=
  { tx := tx, cycles := cycles, size := size, fee := fee, timestamp := timestamp
    ancestorsCount := 1, ancestorsSize := size, ancestorsFee := fee
    ancestorsCycles := cycles
    descendantsCount := 1, descendantsSize := size, descendantsFee := fee }

/-- Modelled from the spec: `TxEntry::add_entry_weight` (entry.rs is absent
from src) adds the other entry's own weight to this entry's ancestor
aggregates, as used by `record_entry_links` and
`update_descendants_index_key` with `EntryOp::Add`. -/
def TxEntry.addEntryWeight (e other : TxEntry) : TxEntry :=
  { e with
    ancestorsCount := e.ancestorsCount + 1
    ancestorsSize := e.ancestorsSize + other.size
    ancestorsFee := e.ancestorsFee + other.fee
    ancestorsCycles := e.ancestorsCycles + other.cycles }

/-- Modelled from the spec: `TxEntry::sub_entry_weight` (entry.rs is absent
from src) subtracts the other entry's own weight from this entry's ancestor
aggregates (saturating, like the Rust saturating ops). -/
def TxEntry.subEntryWeight (e other : TxEntry) : TxEntry :=
  { e with
    ancestorsCount := e.ancestorsCount - 1
    ancestorsSize := e.ancestorsSize - other.size
    ancestorsFee := e.ancestorsFee - other.fee
    ancestorsCycles := e.ancestorsCycles - other.cycles }

/-- Modelled from the spec: `TxEntry::reset_statistic_state` resets the
ancestor/descendant aggregate state to self-only. -/
def TxEntry.resetStatisticState (e : TxEntry) : TxEntry :=
  { e with
    ancestorsCount := 1, ancestorsSize := e.size, ancestorsFee := e.fee
    ancestorsCycles := e.cycles
    descendantsCount := 1, descendantsSize := e.size, descendantsFee := e.fee }

/-- The `AncestorsScoreSortKey` fields (score_key.rs is absent from src;
modelled from the spec: ancestor fee/size, own fee/size, short id). -/
structure AncestorsScoreSortKey where
  ancestorsFee : Nat
  ancestorsSize : Nat
  fee : Nat
  size : Nat
  id : Nat
deriving DecidableEq, Repr

/-- `TxEntry::as_score_key`, modelled from the spec. -/
def TxEntry.asScoreKey (e : TxEntry) : AncestorsScoreSortKey :=
  ⟨e.ancestorsFee, e.ancestorsSize, e.fee, e.size, e.tx.hash⟩

/-- The `EvictKey` (entry.rs is absent from src). Modelled from the spec:
it orders by descendant-inclusive fee rate, then by timestamp; the entry
with the least key is evicted first. -/
structure EvictKey where
  feeRate : Nat
  timestamp : Nat
deriving DecidableEq, Repr

/-- Modelled from the spec: `TxEntry::as_evict_key` uses the
descendant-inclusive fee rate and the admission timestamp. -/
def TxEntry.asEvictKey (e : TxEntry) : EvictKey :=
  ⟨e.descendantsFee * 1000 / e.descendantsSize, e.timestamp⟩

/-- Strict comparison of evict keys (lexicographic). -/
def EvictKey.ltb (a b : EvictKey) : Bool :=
  decide (a.feeRate < b.feeRate ∨ (a.feeRate = b.feeRate ∧ a.timestamp < b.timestamp))

/- ### Association-list and list-set helpers (HashMap / HashSet model) -/

/-- Lookup in an association list (`HashMap::get`). -/
def assocLookup {α β : Type} [DecidableEq α] : List (α × β) → α → Option β
  | [], _ => none
  | (k, v) :: rest, a => if k = a then some v else assocLookup rest a

/-- Remove a key from an association list (`HashMap::remove`). -/
def assocRemove {α β : Type} [DecidableEq α] : List (α × β) → α → List (α × β)
  | [], _ => []
  | (k, v) :: rest, a =>
      if k = a then assocRemove rest a else (k, v) :: assocRemove rest a

/-- Insert/replace a binding (`HashMap::insert`). -/
def assocInsert {α β : Type} [DecidableEq α] (l : List (α × β)) (k : α) (v : β) :
    List (α × β) :=
  assocRemove l k ++ [(k, v)]

/-- Update the value at a key if present (`HashMap::get_mut` followed by a
mutation); a no-op when the key is absent. -/
def assocUpdate {α β : Type} [DecidableEq α] (l : List (α × β)) (k : α) (f : β → β) :
    List (α × β) :=
  l.map (fun p => if p.1 = k then (p.1, f p.2) else p)

/-- Insert into a list-set (`HashSet::insert`). -/
def natInsert (l : List Nat) (x : Nat) : List Nat :=
  if x ∈ l then l else l ++ [x]

/-- Remove from a list-set (`HashSet::remove`). -/
def natRemove : List Nat → Nat → List Nat
  | [], _ => []
  | y :: rest, x => if y = x then natRemove rest x else y :: natRemove rest x

/- ### Edges (`component/edges.rs`) -/

/-- The `Edges` indexes: inputs, outputs, deps and header deps. -/
structure Edges where
  inputs : List (OutPoint × Nat)
  outputs : List (OutPoint × Option Nat)
  deps : List (OutPoint × List Nat)
  headerDeps : List (Nat × List Nat)
deriving DecidableEq, Repr

def Edges.empty : Edges := ⟨[], [], [], []⟩

/-- `Edges::insert_input`. -/
def Edges.insertInput (e : Edges) (op : OutPoint) (txid : Nat) : Edges :=
  { e with inputs := assocInsert e.inputs op txid }

/-- `Edges::remove_input` (the removed id, if any, is `assocLookup`ed by
callers before removal). -/
def Edges.removeInput (e : Edges) (op : OutPoint) : Edges :=
  { e with inputs := assocRemove e.inputs op }

/-- `Edges::insert_output` (an unspent output, value `None`). -/
def Edges.insertOutput (e : Edges) (op : OutPoint) : Edges :=
  { e with outputs := assocInsert e.outputs op none }

/-- `Edges::insert_consumed_output` (output already consumed by `id`). -/
def Edges.insertConsumedOutput (e : Edges) (op : OutPoint) (id : Nat) : Edges :=
  { e with outputs := assocInsert e.outputs op (some id) }

/-- `Edges::remove_output`. -/
def Edges.removeOutput (e : Edges) (op : OutPoint) : Edges :=
  { e with outputs := assocRemove e.outputs op }

/-- `Edges::insert_deps`. -/
def Edges.insertDeps (e : Edges) (op : OutPoint) (txid : Nat) : Edges :=
  { e with deps :=
      match assocLookup e.deps op with
      | some ids => assocInsert e.deps op (natInsert ids txid)
      | none => assocInsert e.deps op [txid] }

/-- `Edges::delete_txid_by_dep`: drop one id from a dep set, removing the
binding when the set becomes empty. -/
def Edges.deleteTxidByDep (e : Edges) (op : OutPoint) (txid : Nat) : Edges :=
  { e with deps :=
      match assocLookup e.deps op with
      | some ids =>
          let ids' := natRemove ids txid
          if ids' = [] then assocRemove e.deps op else assocInsert e.deps op ids'
      | none => e.deps }

/- ### Links (`component/links.rs`) -/

/-- Parent/children adjacency of one entry (`TxLinks`). -/
structure TxLinks where
  parents : List Nat
  children : List Nat
deriving DecidableEq, Repr

/-- `Relation`: which direction a traversal follows. -/
inductive LinkRel where
  | parents
  | children
deriving DecidableEq, Repr

/-- The links map (`TxLinksMap.inner`). -/
abbrev Links : Type := List (Nat × TxLinks)

/-- `TxLinks::get_direct_ids`. -/
def relAdj (links : Links) (rel : LinkRel) (id : Nat) : List Nat :=
  match assocLookup links id with
  | some tl => match rel with
    | .parents => tl.parents
    | .children => tl.children
  | none => []

/-- A fuel bound large enough for the BFS of `calc_relation_ids`: every
iteration pops one staged id, each id is staged at most once, and staged ids
beyond the seed all occur in some adjacency list. -/
def linksFuel (links : Links) : Nat :=
  links.foldl (fun a p => a + p.2.parents.length + p.2.children.length + 1) 0

/-- The worklist loop of `TxLinksMap::calc_relation_ids`: pop an id from the
stage, record it, and stage its direct relatives not yet recorded. -/
def calcRelationFuel (links : Links) (rel : LinkRel) :
    Nat → List Nat → List Nat → List Nat
  | 0, _, acc => acc
  | _ + 1, [], acc => acc
  | fuel + 1, id :: stage, acc =>
      let acc' := natInsert acc id
      let stage' := (relAdj links rel id).foldl
        (fun st x => if x ∈ acc' then st else natInsert st x) stage
      calcRelationFuel links rel fuel stage' acc'

/-- `TxLinksMap::calc_relation_ids`, seeded with `stage`. -/
def calcRelationIds (links : Links) (stage : List Nat) (rel : LinkRel) : List Nat :=
  calcRelationFuel links rel (stage.length + linksFuel links + 1) stage []

/-- `TxLinksMap::calc_ancestors`. -/
def linksCalcAncestors (links : Links) (id : Nat) : List Nat :=
  calcRelationIds links (relAdj links .parents id) .parents

/-- `TxLinksMap::calc_descendants`. -/
def linksCalcDescendants (links : Links) (id : Nat) : List Nat :=
  calcRelationIds links (relAdj links .children id) .children

/-- `TxLinksMap::add_child` (no-op when the node is absent, as `get_mut`). -/
def linksAddChild (links : Links) (id child : Nat) : Links :=
  assocUpdate links id (fun tl => { tl with children := natInsert tl.children child })

/-- `TxLinksMap::add_parent`. -/
def linksAddParent (links : Links) (id parent : Nat) : Links :=
  assocUpdate links id (fun tl => { tl with parents := natInsert tl.parents parent })

/-- `TxLinksMap::remove_child`. -/
def linksRemoveChild (links : Links) (id child : Nat) : Links :=
  assocUpdate links id (fun tl => { tl with children := natRemove tl.children child })

/-- `TxLinksMap::remove_parent`. -/
def linksRemoveParent (links : Links) (id parent : Nat) : Links :=
  assocUpdate links id (fun tl => { tl with parents := natRemove tl.parents parent })

/- ### PoolMap (`component/pool_map.rs`) -/

/-- `EntryOp`. -/
inductive EntryOp where
  | add
  | remove
deriving DecidableEq, Repr

/-- A `PoolEntry` of the multi-index map: unique id plus the sort keys. -/
structure PoolEntry where
  id : Nat
  score : AncestorsScoreSortKey
  status : Status
  evictKey : EvictKey
  inner : TxEntry
deriving DecidableEq, Repr

/-- Lookup by unique id (`MultiIndexPoolEntryMap::get_by_id`). -/
def entriesFind : List PoolEntry → Nat → Option PoolEntry
  | [], _ => none
  | e :: rest, id => if e.id = id then some e else entriesFind rest id

/-- Removal by unique id (`MultiIndexPoolEntryMap::remove_by_id`). -/
def entriesRemove : List PoolEntry → Nat → List PoolEntry
  | [], _ => []
  | e :: rest, id => if e.id = id then entriesRemove rest id else e :: entriesRemove rest id

/-- The `PoolMap`: entries plus the Edges and Links indexes. -/
structure PoolMap where
  entries : List PoolEntry
  edges : Edges
  links : Links
  maxAncestorsCount : Nat
deriving DecidableEq, Repr

/-- `PoolMap::new`. -/
def PoolMap.new (maxAncestorsCount : Nat) : PoolMap :=
  ⟨[], Edges.empty, [], maxAncestorsCount⟩

/-- `PoolMap::get_by_id`. -/
def PoolMap.getById (pm : PoolMap) (id : Nat) : Option PoolEntry :=
  entriesFind pm.entries id

/-- `PoolMap::calc_ancestors`. -/
def PoolMap.calcAncestors (pm : PoolMap) (id : Nat) : List Nat :=
  linksCalcAncestors pm.links id

/-- `PoolMap::calc_descendants`. -/
def PoolMap.calcDescendants (pm : PoolMap) (id : Nat) : List Nat :=
  linksCalcDescendants pm.links id

/-- `PoolMap::get_output_with_data`: the output of an in-pool transaction,
if the index is in range (the cell output itself is abstracted to its index). -/
def PoolMap.getOutputWithData (pm : PoolMap) (op : OutPoint) : Option Nat :=
  match pm.getById op.txHash with
  | some pe => if op.index < pe.inner.tx.outputsLen then some op.index else none
  | none => none

/-- `PoolMap::insert_entry`: build the `PoolEntry` with its sort keys and
insert it into the multi-index map. -/
def PoolMap.insertEntry (pm : PoolMap) (entry : TxEntry) (status : Status) : PoolMap :=
  { pm with entries :=
      pm.entries ++ [⟨entry.tx.shortId, entry.asScoreKey, status, entry.asEvictKey, entry⟩] }

/-- The per-descendant step of `update_descendants_index_key`. The code
`unwrap`s the entry lookup ("pool consistent"); an absent descendant is
modelled as a skip. -/
def updateDescStep (parent : TxEntry) (op : EntryOp) (q : PoolMap) (descId : Nat) :
    PoolMap :=
  match q.getById descId with
  | none => q
  | some e =>
      let child := match op with
        | .remove => e.inner.subEntryWeight parent
        | .add => e.inner.addEntryWeight parent
      let q1 : PoolMap := { q with entries := entriesRemove q.entries child.tx.shortId }
      q1.insertEntry child e.status

/-- `PoolMap::update_descendants_index_key`: adjust the ancestor aggregates
(and hence the sort keys) of every descendant of `parent` by `op`. -/
def PoolMap.updateDescendantsIndexKey (pm : PoolMap) (parent : TxEntry) (op : EntryOp) :
    PoolMap :=
  let descendants := pm.calcDescendants parent.tx.shortId
  descendants.foldl (updateDescStep parent op) pm

/-- `PoolMap::update_descendants_from_detached`: connect pre-existing
children to a newly (re-)added entry and refresh their index keys. -/
def PoolMap.updateDescendantsFromDetached (pm : PoolMap) (id : Nat)
    (children : List Nat) : PoolMap :=
  match pm.getById id with
  | none => pm
  | some entry =>
      let links1 := children.foldl (fun ls child => linksAddParent ls child id) pm.links
      let links2 := assocUpdate links1 id
        (fun tl => { tl with children := children.foldl natInsert tl.children })
      let pm' : PoolMap := { pm with links := links2 }
      pm'.updateDescendantsIndexKey entry.inner .add

/-- The per-input step of `record_entry_relations`: connect a consumed
in-pool output and record the input edge. -/
def recordRelInputsStep (sid : Nat) (q : PoolMap) (i : OutPoint) : PoolMap :=
  let ed := match assocLookup q.edges.outputs i with
    | some _ => { q.edges with outputs := assocInsert q.edges.outputs i (some sid) }
    | none => q.edges
  { q with edges := ed.insertInput i sid }

/-- The per-output step of `record_entry_relations`: record the output edge
(plain or consumed) and collect the already-present children. -/
def recordRelOutputsStep (st : PoolMap × List Nat) (o : OutPoint) : PoolMap × List Nat :=
  let q := st.1
  let ch := match assocLookup q.edges.deps o with
    | some ids => ids.foldl natInsert st.2
    | none => st.2
  match assocLookup q.edges.inputs o with
  | some id => ({ q with edges := q.edges.insertConsumedOutput o id }, natInsert ch id)
  | none => ({ q with edges := q.edges.insertOutput o }, ch)

/-- The per-cell-dep step of `record_entry_relations`. -/
def insertDepsStep (sid : Nat) (q : PoolMap) (d : OutPoint) : PoolMap :=
  { q with edges := q.edges.insertDeps d sid }

/-- The header-deps recording of `record_entry_relations` (only when the
transaction has header deps). -/
def recordHeaderDeps (sid : Nat) (hd : List Nat) (pm3 : PoolMap) : PoolMap :=
  if hd = [] then pm3
  else { pm3 with edges :=
    { pm3.edges with headerDeps := assocInsert pm3.edges.headerDeps sid hd } }

/-- `PoolMap::record_entry_relations`: record input/output/dep/header-dep
edges of a new entry, collecting already-present children (the detached
case), and propagate to them. -/
def PoolMap.recordEntryRelations (pm : PoolMap) (entry : TxEntry) : PoolMap :=
  let sid := entry.tx.shortId
  let pm1 := entry.tx.inputs.foldl (recordRelInputsStep sid) pm
  let pm2 := entry.tx.cellDeps.foldl (insertDepsStep sid) pm1
  let st3 := entry.tx.outputPts.foldl recordRelOutputsStep (pm2, [])
  let pm4 := recordHeaderDeps sid entry.tx.headerDeps st3.1
  let children := st3.2
  if children = [] then pm4 else pm4.updateDescendantsFromDetached sid children

/-- The in-pool parent set computed by `record_entry_links`: ids dep-ing on
one of the entry's input out-points, plus in-links transactions whose hash
is referenced by an input or a cell-dep. -/
def PoolMap.entryParents (pm : PoolMap) (entry : TxEntry) : List Nat :=
  let parents1 := entry.tx.inputs.foldl
    (fun ps input =>
      let ps1 := match assocLookup pm.edges.deps input with
        | some ids => ids.foldl natInsert ps
        | none => ps
      if (assocLookup pm.links input.txHash).isSome then natInsert ps1 input.txHash else ps1)
    []
  entry.tx.cellDeps.foldl
    (fun ps dep =>
      if (assocLookup pm.links dep.txHash).isSome then natInsert ps dep.txHash else ps)
    parents1

/-- The ancestor accumulation of `record_entry_links`: add each ancestor's
weight to the new entry (the code `expect`s each ancestor to be present;
an absent one is modelled as a skip). -/
def PoolMap.accumulateAncestors (pm : PoolMap) (entry : TxEntry) (ancestors : List Nat) :
    TxEntry :=
  ancestors.foldl
    (fun e aid =>
      match pm.getById aid with
      | some anc => e.addEntryWeight anc.inner
      | none => e)
    entry

/-- The `ancestors_count` the entry carries right at the
`ExceededMaximumAncestorsCount` check inside `record_entry_links`. -/
def PoolMap.computedAncestorsCount (pm : PoolMap) (entry : TxEntry) : Nat :=
  (pm.accumulateAncestors entry
    (calcRelationIds pm.links (pm.entryParents entry) .parents)).ancestorsCount

/-- `PoolMap::record_entry_links`: compute parents and ancestors, update the
entry's aggregates, enforce the ancestor cap for `Proposed`, then record
dep edges, child links and the entry's own links node. -/
def PoolMap.recordEntryLinks (pm : PoolMap) (entry : TxEntry) (status : Status) :
    Except Reject (PoolMap × TxEntry) :=
  let sid := entry.tx.shortId
  let parents := pm.entryParents entry
  let ancestors := calcRelationIds pm.links parents .parents
  let entry1 := pm.accumulateAncestors entry ancestors
  if status = .proposed ∧ pm.maxAncestorsCount < entry1.ancestorsCount then
    .error .exceededMaximumAncestorsCount
  else
    let edges1 := entry.tx.cellDeps.foldl (fun ed dep => Edges.insertDeps ed dep sid) pm.edges
    let links1 := parents.foldl (fun ls p => linksAddChild ls p sid) pm.links
    let links2 := assocInsert links1 sid ⟨parents, []⟩
    .ok ({ pm with edges := edges1, links := links2 }, entry1)

/-- `PoolMap::add_entry`. -/
def PoolMap.addEntry (pm : PoolMap) (entry : TxEntry) (status : Status) :
    Except Reject (PoolMap × Bool) :=
  if (pm.getById entry.tx.shortId).isSome then .ok (pm, false)
  else
    match pm.recordEntryLinks entry status with
    | .error r => .error r
    | .ok (pm1, entry1) =>
        let pm2 := pm1.insertEntry entry1 status
        .ok (pm2.recordEntryRelations entry1, true)

/-- `PoolMap::add_entry` with the `Except` collapsed (used where the source
ignores the result); on error the pool is left unchanged. -/
def PoolMap.addEntryD (pm : PoolMap) (entry : TxEntry) (status : Status) : PoolMap :=
  match pm.addEntry entry status with
  | .ok (q, _) => q
  | .error _ => pm

/-- The per-output step of `remove_entry_edges`. -/
def removeOutputStep (q : PoolMap) (o : OutPoint) : PoolMap :=
  { q with edges := q.edges.removeOutput o }

/-- The per-input step of `remove_entry_edges`: release the input record
and mark a matching in-pool output unconsumed again. -/
def removeInputStep (q : PoolMap) (i : OutPoint) : PoolMap :=
  let e1 := q.edges.removeInput i
  { q with edges := { e1 with outputs := assocUpdate e1.outputs i (fun _ => none) } }

/-- The per-cell-dep step of `remove_entry_edges`. -/
def removeDepStep (sid : Nat) (q : PoolMap) (d : OutPoint) : PoolMap :=
  { q with edges := q.edges.deleteTxidByDep d sid }

/-- `PoolMap::remove_entry_edges`. -/
def PoolMap.removeEntryEdges (pm : PoolMap) (entry : TxEntry) : PoolMap :=
  let id := entry.tx.shortId
  let pm1 := entry.tx.outputPts.foldl removeOutputStep pm
  let pm2 := entry.tx.inputs.foldl removeInputStep pm1
  let pm3 := entry.tx.cellDeps.foldl (removeDepStep id) pm2
  { pm3 with edges := { pm3.edges with headerDeps := assocRemove pm3.edges.headerDeps id } }

/-- `PoolMap::update_parents_for_remove`. -/
def PoolMap.updateParentsForRemove (pm : PoolMap) (id : Nat) : PoolMap :=
  match assocLookup pm.links id with
  | some tl => tl.parents.foldl
      (fun (q : PoolMap) p => { q with links := linksRemoveChild q.links p id }) pm
  | none => pm

/-- `PoolMap::update_children_for_remove`. -/
def PoolMap.updateChildrenForRemove (pm : PoolMap) (id : Nat) : PoolMap :=
  match assocLookup pm.links id with
  | some tl => tl.children.foldl
      (fun (q : PoolMap) c => { q with links := linksRemoveParent q.links c id }) pm
  | none => pm

/-- `PoolMap::remove_entry`. -/
def PoolMap.removeEntry (pm : PoolMap) (id : Nat) : PoolMap × Option TxEntry :=
  match pm.getById id with
  | none => (pm, none)
  | some e =>
      let pm1 : PoolMap := { pm with entries := entriesRemove pm.entries id }
      let pm2 := pm1.updateDescendantsIndexKey e.inner .remove
      let pm3 := pm2.removeEntryEdges e.inner
      let pm4 := pm3.updateParentsForRemove id
      let pm5 := pm4.updateChildrenForRemove id
      ({ pm5 with links := assocRemove pm5.links id }, some e.inner)

/-- `PoolMap::update_deps_for_remove`. -/
def PoolMap.updateDepsForRemove (pm : PoolMap) (entry : TxEntry) : PoolMap :=
  entry.tx.cellDeps.foldl
    (fun (q : PoolMap) d =>
      { q with edges :=
          { q.edges with deps :=
              match assocLookup q.edges.deps d with
              | some ids =>
                  let ids' := natRemove ids entry.tx.shortId
                  if ids' = [] then assocRemove q.edges.deps d
                  else assocInsert q.edges.deps d ids'
              | none => q.edges.deps } })
    pm

/-- `PoolMap::remove_unchecked`. -/
def PoolMap.removeUnchecked (pm : PoolMap) (id : Nat) : PoolMap × Option TxEntry :=
  match pm.getById id with
  | none => (pm, none)
  | some e =>
      (PoolMap.updateDepsForRemove { pm with entries := entriesRemove pm.entries id } e.inner,
        some e.inner)

/-- The unlink step of `remove_entry_and_descendants`. -/
def unlinkStep (q : PoolMap) (rid : Nat) : PoolMap :=
  (q.updateParentsForRemove rid).updateChildrenForRemove rid

/-- The batch-removal step of `remove_entry_and_descendants`. -/
def removeUncheckedStep (st : PoolMap × List TxEntry) (rid : Nat) : PoolMap × List TxEntry :=
  match st.1.removeUnchecked rid with
  | (q1, some e) => ({ q1 with links := assocRemove q1.links rid }, st.2 ++ [e])
  | (q1, none) => (q1, st.2)

/-- `PoolMap::remove_entry_and_descendants`: batch removal of an entry and
its whole descendant subtree. -/
def PoolMap.removeEntryAndDescendants (pm : PoolMap) (id : Nat) :
    PoolMap × List TxEntry :=
  let removedIds := id :: pm.calcDescendants id
  let pm1 := removedIds.foldl unlinkStep pm
  let st := removedIds.foldl removeUncheckedStep (pm1, [])
  (st.2.foldl (fun (q : PoolMap) e => q.removeEntryEdges e) st.1, st.2)

/-- `PoolMap::next_evict_entry` as found in `pool_map.rs`: the first entry
in evict-key order over the whole pool. It takes no status argument, even
though its caller `TxPool::limit_size` passes one. -/
def PoolMap.nextEvictEntry (pm : PoolMap) : Option Nat :=
  (pm.entries.foldl
    (fun best e =>
      match best with
      | none => some e
      | some b => if e.evictKey.ltb b.evictKey then some e else best)
    none).map (fun e => e.id)

/- ### TxPool operations (`pool.rs`) -/

/-- Modelled from the spec: `PoolMap::set_entry` is called by
`TxPool::set_entry_gap` / `set_entry_proposed` but is absent from the
provided `pool_map.rs`; per the spec it re-indexes on the status axis only
and touches neither edges nor links. -/
def PoolMap.setEntry (pm : PoolMap) (id : Nat) (status : Status) : PoolMap :=
  { pm with entries :=
      pm.entries.map (fun e => if e.id = id then { e with status := status } else e) }

/-- `TxPool::gap_rtx`: transition an entry to `Gap`, failing `Duplicated`
when already in `Gap` and `Malformed` when the id is unknown. -/
def gapRtx (pm : PoolMap) (id : Nat) : PoolMap × Except Reject Unit :=
  match pm.getById id with
  | some e =>
      if e.status = .gap then (pm, .error (.duplicated e.inner.tx.hash))
      else (pm.setEntry id .gap, .ok ())
  | none => (pm, .error (.malformed invalidShortIdMsg))

/-- `TxPool::proposed_rtx`: the same contract with `Proposed`. -/
def proposedRtx (pm : PoolMap) (id : Nat) : PoolMap × Except Reject Unit :=
  match pm.getById id with
  | some e =>
      if e.status = .proposed then (pm, .error (.duplicated e.inner.tx.hash))
      else (pm.setEntry id .proposed, .ok ())
  | none => (pm, .error (.malformed invalidShortIdMsg))

/-- The comparison key of `sort_unstable_by_key(|entry| entry.ancestors_count)`. -/
def ancCountLe (a b : TxEntry) : Prop :=
  a.ancestorsCount ≤ b.ancestorsCount

instance : DecidableRel ancCountLe := fun a b =>
  Nat.decLe a.ancestorsCount b.ancestorsCount

instance : IsTotal TxEntry ancCountLe :=
  ⟨fun a b => Nat.le_total a.ancestorsCount b.ancestorsCount⟩

instance : IsTrans TxEntry ancCountLe :=
  ⟨fun _ _ _ hab hbc => Nat.le_trans hab hbc⟩

/-- `sort_unstable_by_key(|entry| entry.ancestors_count)`, modelled as an
insertion sort on the same key. -/
def sortByAncCount (l : List TxEntry) : List TxEntry :=
  l.insertionSort ancCountLe

/-- The re-admission step of `remove_by_detached_proposal`: reset the
statistic state and `add_pending` (the result is ignored by the source). -/
def readdStep (r : PoolMap) (ent : TxEntry) : PoolMap :=
  r.addEntryD ent.resetStatisticState .pending

/-- `TxPool::remove_by_detached_proposal`: for each id not already
`Pending`, remove the entry and its descendants, reset their statistic
state and re-admit them as `Pending` in ascending `ancestors_count` order. -/
def removeByDetachedProposal (pm : PoolMap) (ids : List Nat) : PoolMap :=
  ids.foldl
    (fun (q : PoolMap) id =>
      match q.getById id with
      | some e =>
          if e.status = .pending then q
          else
            let st := q.removeEntryAndDescendants id
            (sortByAncCount st.2).foldl readdStep st.1
      | none => q)
    pm

/-- `MAX_REPLACEMENT_CANDIDATES` (`pool.rs`). -/
def MAX_REPLACEMENT_CANDIDATES : Nat := 100

/-- The chain snapshot, reduced to the transaction-existence oracle
`check_rbf` consults (`Snapshot::transaction_exists`). -/
structure Snapshot where
  txs : List Nat
deriving DecidableEq, Repr

/-- `Snapshot::transaction_exists`. -/
def Snapshot.transactionExists (s : Snapshot) (hash : Nat) : Bool :=
  decide (hash ∈ s.txs)

/-- Modelled from the spec: `PoolMap::find_conflict_tx` is called by
`check_rbf` but absent from the provided `pool_map.rs`; per the spec the
conflict set is the set of pool entries that consume one of the new
transaction's input out-points (via `Edges.inputs`). -/
def PoolMap.findConflictTx (pm : PoolMap) (tx : Tx) : List Nat :=
  tx.inputs.foldl
    (fun acc pt =>
      match assocLookup pm.edges.inputs pt with
      | some id => natInsert acc id
      | none => acc)
    []

/-- Modelled from the spec: `FeeRate::fee` (ckb-types, outside src) —
the extra RBF fee is `min_rbf_rate · size`. -/
def feeRateFee (rate size : Nat) : Nat := rate * size

/-- `Capacity::safe_add`: checked `u64` addition. -/
def safeAdd (a b : Nat) : Option Nat :=
  if a + b < 2 ^ 64 then some (a + b) else none

/-- The `try_fold`-with-`safe_add` sum over a list of fees. -/
def safeSum : List Nat → Option Nat
  | [] => some 0
  | f :: rest =>
      match safeSum rest with
      | some s => safeAdd s f
      | none => none

/-- `TxPool::calculate_min_replace_fee`: deduplicate the conflicting
entries by id (a `HashMap` collect, later bindings replacing earlier ones),
sum their fees with checked addition, and add the extra RBF fee. -/
def calculateMinReplaceFee (conflicts : List PoolEntry) (size rate : Nat) : Option Nat :=
  let extra := feeRateFee rate size
  let replacedFees := conflicts.foldl (fun m c => assocInsert m c.id c.inner.fee) []
  match safeSum (replacedFees.map (fun p => p.2)) with
  | some s => safeAdd s extra
  | none => none

/-- Disjointness test between two id sets (`HashSet::is_disjoint`). -/
def natDisjoint (a b : List Nat) : Bool :=
  a.all (fun x => decide (x ∉ b))

/-- The conflict loop of `check_rbf` (rule 5 and its companions): per
conflict, bound the running replacement count, require the new tx's
ancestors to be disjoint from the conflict's descendants, and forbid the
new tx from spending descendant outputs; accumulates all conflicted
entries. -/
def rbfLoop (pm : PoolMap) (ancestors : List Nat) (txInputs : List OutPoint) :
    List PoolEntry → Nat → List PoolEntry → Except Reject (List PoolEntry)
  | [], _, acc => .ok acc
  | c :: rest, rc, acc =>
      let descendants := pm.calcDescendants c.id
      let rc1 := rc + descendants.length + 1
      if MAX_REPLACEMENT_CANDIDATES < rc1 then
        .error (.rbfRejected (.tooMany rc1 MAX_REPLACEMENT_CANDIDATES))
      else if ¬ natDisjoint descendants ancestors then
        .error (.rbfRejected .ancestorsCommon)
      else
        let entries := descendants.filterMap (fun id => pm.getById id)
        if entries.any (fun e => txInputs.any (fun pt => decide (pt.txHash = e.inner.tx.hash))) then
          .error (.rbfRejected .inputsInDescendants)
        else rbfLoop pm ancestors txInputs rest rc1 (acc ++ entries)

/-- Rule 2 of `check_rbf`: does the new tx contain an input that is neither
among the conflicts' inputs nor an output of a chain transaction? -/
def rbfHasUnconfirmedInput (snapshot : Snapshot) (conflicts : List PoolEntry)
    (txInputs : List OutPoint) : Bool :=
  let inputs := conflicts.foldl
    (fun acc c => c.inner.tx.inputs.foldl (fun a p => if p ∈ a then a else a ++ [p]) acc) []
  txInputs.any (fun pt => decide (pt ∉ inputs) && ! snapshot.transactionExists pt.txHash)

/-- `TxPool::check_rbf` (`pool.rs`): the RBF admission gate. -/
def checkRbf (pm : PoolMap) (snapshot : Snapshot) (minRbfRate : Nat) (entry : TxEntry) :
    Except Reject (List Nat) :=
  let txInputs := entry.tx.inputs
  let conflictIds := pm.findConflictTx entry.tx
  if conflictIds = [] then .ok conflictIds
  else
    let txCellDeps := entry.tx.cellDeps
    let shortId := entry.tx.shortId
    let conflicts := conflictIds.filterMap (fun id => pm.getById id)
    if rbfHasUnconfirmedInput snapshot conflicts txInputs then
      .error (.rbfRejected .unconfirmedInputs)
    else
      let ancestors := pm.calcAncestors shortId
      match rbfLoop pm ancestors txInputs conflicts 0 conflicts with
      | .error r => .error r
      | .ok allConflicted =>
          if allConflicted.any
              (fun e => txCellDeps.any (fun pt => decide (pt.txHash = e.inner.tx.hash))) then
            .error (.rbfRejected .cellDepsFromConflicts)
          else
            match calculateMinReplaceFee allConflicted entry.size minRbfRate with
            | some minReplaceFee =>
                if entry.fee < minReplaceFee then
                  .error (.rbfRejected (.feeTooLow entry.fee minReplaceFee))
                else .ok conflictIds
            | none => .error (.rbfRejected .minFeeFailed)

/- ### VerifyQueue (`component/verify_queue.rs`) -/

/-- `DEFAULT_MAX_VERIFY_TRANSACTIONS`. -/
def DEFAULT_MAX_VERIFY_TRANSACTIONS : Nat := 100

/-- A `VerifyEntry`: unique short id, arrival time, and the entry payload
(`Entry { tx, remote }`). -/
structure VerifyEntry where
  id : Nat
  addedTime : Nat
  tx : Tx
  remote : Option (Nat × Nat)
deriving DecidableEq, Repr

/-- The `VerifyQueue`: the multi-index map plus the last value published on
the watch channel (`watch::channel(0)` starts at 0). -/
structure VerifyQueue where
  inner : List VerifyEntry
  watch : Nat
deriving DecidableEq, Repr

/-- `VerifyQueue::new`. -/
def VerifyQueue.new : VerifyQueue := ⟨[], 0⟩

/-- `VerifyQueue::len`. -/
def VerifyQueue.len (q : VerifyQueue) : Nat := q.inner.length

/-- Lookup by id. -/
def vqFind : List VerifyEntry → Nat → Option VerifyEntry
  | [], _ => none
  | e :: rest, id => if e.id = id then some e else vqFind rest id

/-- Removal by id. -/
def vqRemove : List VerifyEntry → Nat → List VerifyEntry
  | [], _ => []
  | e :: rest, id => if e.id = id then vqRemove rest id else e :: vqRemove rest id

/-- `VerifyQueue::contains_key`. -/
def VerifyQueue.containsKey (q : VerifyQueue) (id : Nat) : Bool :=
  (vqFind q.inner id).isSome

/-- `VerifyQueue::is_full`. -/
def VerifyQueue.isFull (q : VerifyQueue) : Bool :=
  decide (DEFAULT_MAX_VERIFY_TRANSACTIONS ≤ q.len)

/-- `VerifyQueue::add_tx`: reject `Full` when saturated, `Ok(false)` on a
duplicate, otherwise insert and publish the new length on the watch
channel. -/
def VerifyQueue.addTx (q : VerifyQueue) (tx : Tx) (remote : Option (Nat × Nat))
    (now : Nat) : VerifyQueue × Except Reject Bool :=
  if q.containsKey tx.shortId then (q, .ok false)
  else if q.isFull then (q, .error (.queueFull tx.hash))
  else
    let inner' := q.inner ++ [⟨tx.shortId, now, tx, remote⟩]
    ({ inner := inner', watch := inner'.length }, .ok true)

/-- `VerifyQueue::remove_tx`: removal does not publish on the watch
channel. -/
def VerifyQueue.removeTx (q : VerifyQueue) (id : Nat) :
    VerifyQueue × Option (Tx × Option (Nat × Nat)) :=
  match vqFind q.inner id with
  | some e => ({ q with inner := vqRemove q.inner id }, some (e.tx, e.remote))
  | none => (q, none)

/-- `VerifyQueue::remove_txs`. -/
def VerifyQueue.removeTxs (q : VerifyQueue) (ids : List Nat) : VerifyQueue :=
  ids.foldl (fun r id => { r with inner := vqRemove r.inner id }) q

/-- `VerifyQueue::peek`: the first entry in `added_time` order. -/
def VerifyQueue.peek (q : VerifyQueue) : Option Nat :=
  (q.inner.foldl
    (fun best e =>
      match best with
      | none => some e
      | some b => if e.addedTime < b.addedTime then some e else best)
    none).map (fun e => e.tx.shortId)

/-- `VerifyQueue::pop_first`. -/
def VerifyQueue.popFirst (q : VerifyQueue) :
    VerifyQueue × Option (Tx × Option (Nat × Nat)) :=
  match q.peek with
  | some id => q.removeTx id
  | none => (q, none)

/-- `VerifyQueue::clear`. -/
def VerifyQueue.clear (q : VerifyQueue) : VerifyQueue :=
  { q with inner := [] }

/- ### Cell status and the two cell interfaces
(`pool_map.rs` trait impls and `pool_cell.rs`) -/

/-- `CellStatus`, with the live cell meta abstracted to its out-point. -/
inductive CellStatus where
  | live (op : OutPoint)
  | dead
  | unknown
deriving DecidableEq, Repr

/-- `CellProvider for PoolMap`: the `expect("output")` panic (an output
edge without a backing entry) is modelled as `none`. -/
def PoolMap.cellStatus (pm : PoolMap) (op : OutPoint) : Option CellStatus :=
  if (assocLookup pm.edges.inputs op).isSome then some .dead
  else
    match assocLookup pm.edges.outputs op with
    | some (some _) => some .dead
    | some none =>
        match pm.getOutputWithData op with
        | some _ => some (.live op)
        | none => none
    | none => some .unknown

/-- `CellChecker for PoolMap`. -/
def PoolMap.isLiveCell (pm : PoolMap) (op : OutPoint) : Option Bool :=
  if (assocLookup pm.edges.inputs op).isSome then some false
  else
    match assocLookup pm.edges.outputs op with
    | some (some _) => some false
    | some none => some true
    | none => none

/-- `PoolCell::cell` (the non-RBF provider). -/
def poolCellCellPlain (pm : PoolMap) (op : OutPoint) : CellStatus :=
  if (assocLookup pm.edges.inputs op).isSome then .dead
  else
    match pm.getOutputWithData op with
    | some _ => .live op
    | none => .unknown

/-- `PoolCell::cell_rbf`. -/
def poolCellCellRbf (pm : PoolMap) (op : OutPoint) : CellStatus :=
  match pm.getOutputWithData op with
  | some _ => .live op
  | none => .unknown

/-- `CellProvider for PoolCell`: dispatch on the `rbf` flag. -/
def poolCellCell (pm : PoolMap) (rbf : Bool) (op : OutPoint) : CellStatus :=
  if rbf then poolCellCellRbf pm op else poolCellCellPlain pm op

/-- `PoolCell::is_live` (the non-RBF checker). -/
def poolCellIsLivePlain (pm : PoolMap) (op : OutPoint) : Option Bool :=
  if (assocLookup pm.edges.inputs op).isSome then some false
  else
    match pm.getOutputWithData op with
    | some _ => some true
    | none => none

/-- `PoolCell::is_live_rbf`. -/
def poolCellIsLiveRbf (pm : PoolMap) (op : OutPoint) : Option Bool :=
  match pm.getOutputWithData op with
  | some _ => some true
  | none => none

/-- `CellChecker for PoolCell`: dispatch on the `rbf` flag. -/
def poolCellIsLive (pm : PoolMap) (rbf : Bool) (op : OutPoint) : Option Bool :=
  if rbf then poolCellIsLiveRbf pm op else poolCellIsLivePlain pm op

/- ### Helper lemmas -/

/-- Structural equality on `Except` results is decidable. -/
def exceptToSum {e a : Type} : Except e a → e ⊕ a
  | .error x => .inl x
  | .ok x => .inr x

theorem exceptToSum_inj {e a : Type} {x y : Except e a}
    (h : exceptToSum x = exceptToSum y) : x = y := by
  cases x <;> cases y <;> simp [exceptToSum] at h <;> simp [h]

instance {e a : Type} [DecidableEq e] [DecidableEq a] : DecidableEq (Except e a) :=
  fun x y =>
    decidable_of_iff (exceptToSum x = exceptToSum y) ⟨exceptToSum_inj, fun h => by rw [h]⟩

/-- The watch value is untouched by the removal fold of `remove_txs`. -/
theorem removeTxs_foldl_watch (ids : List Nat) (q : VerifyQueue) :
    (ids.foldl (fun r id => { r with inner := vqRemove r.inner id }) q).watch = q.watch := by
  induction ids generalizing q with
  | nil => rfl
  | cons i rest ih => exact ih _


theorem assocLookup_mem {α β : Type} [DecidableEq α] {l : List (α × β)} {k : α} {v : β}
    (h : assocLookup l k = some v) : (k, v) ∈ l := by
  induction l with
  | nil => simp [assocLookup] at h
  | cons p rest ih =>
      obtain ⟨pk, pv⟩ := p
      rw [assocLookup] at h
      by_cases hk : pk = k
      · subst hk
        simp at h
        subst h
        exact List.mem_cons_self _ _
      · simp [hk] at h
        exact List.mem_cons_of_mem _ (ih h)

theorem getOutputWithData_isSome_iff (pm : PoolMap) (op : OutPoint) :
    (pm.getOutputWithData op).isSome ↔
      ∃ pe, pm.getById op.txHash = some pe ∧ op.index < pe.inner.tx.outputsLen := by
  unfold PoolMap.getOutputWithData
  cases h : pm.getById op.txHash with
  | none => simp
  | some pe =>
      by_cases hlt : op.index < pe.inner.tx.outputsLen
      · simp [hlt]
      · simp [hlt]

/- ### Fixtures -/

def txA : Tx := ⟨1, [⟨100, 0⟩], 1, [], []⟩
def entryA : TxEntry := TxEntry.mkSelf txA 2 10 5 0
def txB : Tx := ⟨2, [⟨1, 0⟩], 1, [], []⟩
def entryB : TxEntry := TxEntry.mkSelf txB 2 10 7 1
def poolC1 : PoolMap := ((PoolMap.new 125).addEntryD entryA .pending).addEntryD entryB .pending

/-- The descendant closure of an entry, the entry itself included, as the
spec counts it. -/
def PoolMap.descClosure (pm : PoolMap) (id : Nat) : List PoolEntry :=
  (id :: pm.calcDescendants id).filterMap (fun i => pm.getById i)

/-- C1 (code bug): after `add_entry` of a parent and then of its child, the
parent's stored descendant aggregates are still self-only while its
descendant closure has grown: `pool_map.rs` never updates an ancestor's
stored entry when a descendant is added (there is no
`update_ancestors_index_key` pass), so invariant 6's descendant half fails
on the two-transaction pool {A, B(spends A)}. -/
theorem c1_descendant_aggregates_diverge :
    poolC1.calcDescendants 1 = [2] ∧
    (poolC1.getById 1).map (fun pe => pe.inner.descendantsCount) = some 1 ∧
    (poolC1.getById 1).map (fun pe => pe.inner.descendantsSize) = some 10 ∧
    (poolC1.getById 1).map (fun pe => pe.inner.descendantsFee) = some 5 ∧
    (poolC1.descClosure 1).length = 2 ∧
    ((poolC1.descClosure 1).map (fun pe => pe.inner.size)).sum = 20 ∧
    ((poolC1.descClosure 1).map (fun pe => pe.inner.fee)).sum = 12 := by
  decide

def tx3 : Tx := ⟨3, [⟨300, 0⟩], 1, [], []⟩
def entry3 : TxEntry := TxEntry.mkSelf tx3 1 10 100 0
def tx4 : Tx := ⟨4, [⟨400, 0⟩], 1, [], []⟩
def entry4 : TxEntry := TxEntry.mkSelf tx4 1 10 1 5
def poolC6 : PoolMap := ((PoolMap.new 125).addEntryD entry3 .pending).addEntryD entry4 .gap

/-- C6 (code bug): `PoolMap::next_evict_entry` in the provided
`pool_map.rs` takes no status argument and scans the whole pool, although
its caller `TxPool::limit_size` invokes it per status (`Pending`, then
`Gap`, then `Proposed`). On a pool holding a `Pending` entry (id 3) and a
`Gap` entry (id 4) with the lower evict key, the function returns the
`Gap` entry, so the entry returned for the `Pending` scan does not have the
requested status. -/
theorem c6_next_evict_ignores_status :
    poolC6.nextEvictEntry = some 4 ∧
    (poolC6.getById 4).map (fun e => e.status) = some Status.gap ∧
    (poolC6.getById 3).map (fun e => e.status) = some Status.pending ∧
    Status.gap ≠ Status.pending := by
  decide

def txQ : Tx := ⟨7, [], 0, [], []⟩

/-- C7 counterexample: one `add_tx` followed by one `remove_tx` leaves the
watch channel at 1 while the queue length is 0, so not every mutation
publishes the new length. -/
theorem c7_counterexample :
    ((VerifyQueue.new.addTx txQ none 5).1.removeTx 7).1.watch = 1 ∧
    ((VerifyQueue.new.addTx txQ none 5).1.removeTx 7).1.len = 0 ∧
    ((VerifyQueue.new.addTx txQ none 5).1.removeTx 7).1.watch ≠
      ((VerifyQueue.new.addTx txQ none 5).1.removeTx 7).1.len := by
  decide

/-- C7 (amended): only `add_tx` publishes on the watch channel — when it
inserts, the published value equals the new length (and a non-inserting
`add_tx` leaves the queue untouched); `remove_tx`, `remove_txs`,
`pop_first` and `clear` leave the last published value unchanged. -/
theorem c7_watch_publication (q : VerifyQueue) (tx : Tx) (remote : Option (Nat × Nat))
    (now : Nat) (id : Nat) (ids : List Nat) :
    ((q.addTx tx remote now).2 = .ok true →
      (q.addTx tx remote now).1.watch = (q.addTx tx remote now).1.len) ∧
    ((q.addTx tx remote now).2 ≠ .ok true → (q.addTx tx remote now).1 = q) ∧
    (q.removeTx id).1.watch = q.watch ∧
    (q.removeTxs ids).watch = q.watch ∧
    (q.popFirst).1.watch = q.watch ∧
    q.clear.watch = q.watch := by
  refine ⟨?_, ?_, ?_, ?_, ?_, rfl⟩
  · intro h
    unfold VerifyQueue.addTx at h ⊢
    by_cases hc : q.containsKey tx.shortId
    · simp [hc] at h
    · by_cases hf : q.isFull
      · simp [hc, hf] at h
      · simp [hc, hf, VerifyQueue.len]
  · intro h
    unfold VerifyQueue.addTx at h ⊢
    by_cases hc : q.containsKey tx.shortId
    · simp [hc]
    · by_cases hf : q.isFull
      · simp [hc, hf]
      · simp [hc, hf] at h
  · unfold VerifyQueue.removeTx
    cases vqFind q.inner id <;> simp
  · exact removeTxs_foldl_watch ids q
  · unfold VerifyQueue.popFirst
    cases q.peek with
    | none => rfl
    | some i =>
        simp only
        unfold VerifyQueue.removeTx
        cases vqFind q.inner i <;> simp

/-- C7 witness: the amended publication guarantee instantiated on a
concrete insertion. -/
theorem c7_watch_publication_witness :
    (VerifyQueue.new.addTx txQ none 5).1.watch = (VerifyQueue.new.addTx txQ none 5).1.len :=
  (c7_watch_publication VerifyQueue.new txQ none 5 0 []).1 (by decide)

/-- The status-axis re-index of `set_entry` only changes the `status` field
of the entry with the given id, as seen through `get_by_id`. -/
theorem entriesFind_map_status (l : List PoolEntry) (id : Nat) (s : Status) :
    entriesFind (l.map (fun e => if e.id = id then { e with status := s } else e)) id
      = (entriesFind l id).map (fun e => { e with status := s }) := by
  induction l with
  | nil => rfl
  | cons e rest ih =>
      by_cases h : e.id = id
      · simp [entriesFind, h]
      · simp [entriesFind, h, ih]

theorem getById_setEntry_self (pm : PoolMap) (id : Nat) (s : Status) :
    (pm.setEntry id s).getById id = (pm.getById id).map (fun e => { e with status := s }) := by
  unfold PoolMap.setEntry PoolMap.getById
  exact entriesFind_map_status pm.entries id s

/-- C8: `gap_rtx` fails `Malformed` on an unknown id, fails `Duplicated`
(leaving the pool unchanged) when the entry is already `Gap`, and otherwise
moves the entry to `Gap` and succeeds, so a second call yields
`Duplicated`; `proposed_rtx` satisfies the same contract for `Proposed`. -/
theorem c8_gap_proposed_rtx (pm : PoolMap) (id : Nat) :
    (pm.getById id = none →
      gapRtx pm id = (pm, .error (.malformed invalidShortIdMsg)) ∧
      proposedRtx pm id = (pm, .error (.malformed invalidShortIdMsg))) ∧
    (∀ pe, pm.getById id = some pe → pe.status = .gap →
      gapRtx pm id = (pm, .error (.duplicated pe.inner.tx.hash))) ∧
    (∀ pe, pm.getById id = some pe → pe.status ≠ .gap →
      (gapRtx pm id).2 = .ok () ∧
      ((gapRtx pm id).1.getById id).map (fun e => e.status) = some .gap ∧
      (gapRtx (gapRtx pm id).1 id).2 = .error (.duplicated pe.inner.tx.hash)) ∧
    (∀ pe, pm.getById id = some pe → pe.status = .proposed →
      proposedRtx pm id = (pm, .error (.duplicated pe.inner.tx.hash))) ∧
    (∀ pe, pm.getById id = some pe → pe.status ≠ .proposed →
      (proposedRtx pm id).2 = .ok () ∧
      ((proposedRtx pm id).1.getById id).map (fun e => e.status) = some .proposed ∧
      (proposedRtx (proposedRtx pm id).1 id).2 = .error (.duplicated pe.inner.tx.hash)) := by
  refine ⟨?_, ?_, ?_, ?_, ?_⟩
  · intro hnone
    constructor
    · unfold gapRtx
      rw [hnone]
    · unfold proposedRtx
      rw [hnone]
  · intro pe hget hgap
    unfold gapRtx
    rw [hget]
    simp [hgap]
  · intro pe hget hne
    have h1 : gapRtx pm id = (pm.setEntry id .gap, .ok ()) := by
      unfold gapRtx
      rw [hget]
      simp [hne]
    have h2 : (pm.setEntry id .gap).getById id = some { pe with status := .gap } := by
      rw [getById_setEntry_self, hget]
      rfl
    refine ⟨by rw [h1], ?_, ?_⟩
    · rw [h1]
      simp only
      rw [h2]
      rfl
    · rw [h1]
      simp only
      unfold gapRtx
      rw [h2]
      simp
  · intro pe hget hprop
    unfold proposedRtx
    rw [hget]
    simp [hprop]
  · intro pe hget hne
    have h1 : proposedRtx pm id = (pm.setEntry id .proposed, .ok ()) := by
      unfold proposedRtx
      rw [hget]
      simp [hne]
    have h2 : (pm.setEntry id .proposed).getById id = some { pe with status := .proposed } := by
      rw [getById_setEntry_self, hget]
      rfl
    refine ⟨by rw [h1], ?_, ?_⟩
    · rw [h1]
      simp only
      rw [h2]
      rfl
    · rw [h1]
      simp only
      unfold proposedRtx
      rw [h2]
      simp

def txG : Tx := ⟨20, [], 0, [], []⟩
def entryG : TxEntry := TxEntry.mkSelf txG 1 10 5 0
def poolG : PoolMap := (PoolMap.new 125).addEntryD entryG .pending
def peG : PoolEntry := ⟨20, ⟨5, 10, 5, 10, 20⟩, .pending, ⟨500, 0⟩, entryG⟩

/-- C8 witness: on a concrete pool whose entry 20 is `Pending`, `gap_rtx`
succeeds and a second `gap_rtx` returns `Duplicated`. -/
theorem c8_gap_proposed_rtx_witness :
    (gapRtx poolG 20).2 = .ok () ∧
    (gapRtx (gapRtx poolG 20).1 20).2 = .error (.duplicated 20) := by
  have h := (c8_gap_proposed_rtx poolG 20).2.2.1 peG (by decide) (by decide)
  exact ⟨h.1, h.2.2⟩

/-- C9: with `rbf = true`, `PoolCell` never reports a dead cell —
`is_live` answers `Some(true)` exactly when the out-point is a (valid)
output of an in-pool transaction, even if a pool entry already consumes it,
and `None` otherwise; `cell` never returns `Dead`. With `rbf = false`, an
out-point recorded in `Edges.inputs` yields `Some(false)` / `Dead`. -/
theorem c9_pool_cell_rbf (pm : PoolMap) (op : OutPoint) :
    poolCellIsLive pm true op ≠ some false ∧
    (poolCellIsLive pm true op = some true ↔
      ∃ pe, pm.getById op.txHash = some pe ∧ op.index < pe.inner.tx.outputsLen) ∧
    (poolCellIsLive pm true op = none ↔
      ¬ ∃ pe, pm.getById op.txHash = some pe ∧ op.index < pe.inner.tx.outputsLen) ∧
    poolCellCell pm true op ≠ CellStatus.dead ∧
    ((assocLookup pm.edges.inputs op).isSome →
      poolCellIsLive pm false op = some false ∧ poolCellCell pm false op = CellStatus.dead) := by
  have hiff := getOutputWithData_isSome_iff pm op
  have hlast : (assocLookup pm.edges.inputs op).isSome →
      poolCellIsLive pm false op = some false ∧ poolCellCell pm false op = CellStatus.dead := by
    intro hin
    obtain ⟨inid, hin'⟩ := Option.isSome_iff_exists.mp hin
    constructor
    · simp [poolCellIsLive, poolCellIsLivePlain, hin']
    · simp [poolCellCell, poolCellCellPlain, hin']
  cases h : pm.getOutputWithData op with
  | some x =>
      rw [h] at hiff
      simp only [Option.isSome_some, true_iff] at hiff
      have hval : poolCellIsLive pm true op = some true := by
        simp [poolCellIsLive, poolCellIsLiveRbf, h]
      have hcval : poolCellCell pm true op = CellStatus.live op := by
        simp [poolCellCell, poolCellCellRbf, h]
      refine ⟨by simp [hval], by simp [hval, hiff], by simp [hval, hiff], by simp [hcval], hlast⟩
  | none =>
      rw [h] at hiff
      have hne : ¬ ∃ pe, pm.getById op.txHash = some pe ∧ op.index < pe.inner.tx.outputsLen := by
        rw [← hiff]
        simp
      have hval : poolCellIsLive pm true op = none := by
        simp [poolCellIsLive, poolCellIsLiveRbf, h]
      have hcval : poolCellCell pm true op = CellStatus.unknown := by
        simp [poolCellCell, poolCellCellRbf, h]
      refine ⟨by simp [hval], by simp [hval, hne], by simp [hval, hne], by simp [hcval], hlast⟩

def txX : Tx := ⟨10, [⟨500, 0⟩], 2, [], []⟩
def entryX : TxEntry := TxEntry.mkSelf txX 1 10 5 0
def txY : Tx := ⟨11, [⟨10, 0⟩], 1, [], []⟩
def entryY : TxEntry := TxEntry.mkSelf txY 1 10 5 1
def poolCells : PoolMap := ((PoolMap.new 125).addEntryD entryX .pending).addEntryD entryY .pending

/-- C9 witness: on a concrete pool, an out-point consumed as an input is
reported dead by the non-RBF interfaces. -/
theorem c9_pool_cell_rbf_witness :
    poolCellIsLive poolCells false ⟨10, 0⟩ = some false ∧
    poolCellCell poolCells false ⟨10, 0⟩ = CellStatus.dead :=
  (c9_pool_cell_rbf poolCells ⟨10, 0⟩).2.2.2.2 (by decide)

/-- The consistency hypothesis under which `CellProvider for PoolMap`
cannot hit its `expect("output")` panic: every unspent out-point recorded
in `Edges.outputs` is backed by an in-pool output. -/
def PoolMap.OutputsBacked (pm : PoolMap) : Prop :=
  ∀ p ∈ pm.edges.outputs, p.2 = none → (pm.getOutputWithData p.1).isSome

instance (pm : PoolMap) : Decidable pm.OutputsBacked := by
  unfold PoolMap.OutputsBacked
  infer_instance

/-- C10: on a pool whose output index is backed by entries, the two
cell-lookup interfaces of `PoolMap` agree: `is_live` answers `Some(false)`
exactly when `cell` answers `Dead` (the out-point is consumed as an input
or is an output marked consumed), `Some(true)` exactly when `cell` answers
a live cell, and `None` exactly when `cell` answers `Unknown`. -/
theorem c10_cell_interfaces_agree (pm : PoolMap) (op : OutPoint)
    (hwf : pm.OutputsBacked) :
    (pm.isLiveCell op = some false ↔ pm.cellStatus op = some CellStatus.dead) ∧
    (pm.isLiveCell op = some false ↔
      ((assocLookup pm.edges.inputs op).isSome ∨
        ∃ x, assocLookup pm.edges.outputs op = some (some x))) ∧
    (pm.isLiveCell op = some true ↔ ∃ o, pm.cellStatus op = some (CellStatus.live o)) ∧
    (pm.isLiveCell op = none ↔ pm.cellStatus op = some CellStatus.unknown) := by
  cases hin : assocLookup pm.edges.inputs op with
  | some i => simp [PoolMap.isLiveCell, PoolMap.cellStatus, hin]
  | none =>
      cases hout : assocLookup pm.edges.outputs op with
      | none => simp [PoolMap.isLiveCell, PoolMap.cellStatus, hin, hout]
      | some o =>
          cases o with
          | some x => simp [PoolMap.isLiveCell, PoolMap.cellStatus, hin, hout]
          | none =>
              have hs := hwf (op, none) (assocLookup_mem hout) rfl
              obtain ⟨y, hy⟩ := Option.isSome_iff_exists.mp hs
              simp [PoolMap.isLiveCell, PoolMap.cellStatus, hin, hout, hy]

/-- C10 witness: the agreement instantiated on a concrete pool at a
consumed out-point. -/
theorem c10_cell_interfaces_agree_witness :
    poolCells.cellStatus ⟨10, 0⟩ = some CellStatus.dead :=
  ((c10_cell_interfaces_agree poolCells ⟨10, 0⟩ (by decide)).1).mp (by decide)

/-- The two outcomes of `add_entry` on a fresh id, split on the ancestor
cap: the `Proposed`-over-cap check is the only error source, everything
else returns `Ok(true)`. -/
theorem addEntry_none_cases (pm : PoolMap) (entry : TxEntry) (status : Status)
    (hnone : pm.getById entry.tx.shortId = none) :
    (status = .proposed ∧ pm.maxAncestorsCount < pm.computedAncestorsCount entry →
      pm.addEntry entry status = .error .exceededMaximumAncestorsCount) ∧
    (¬ (status = .proposed ∧ pm.maxAncestorsCount < pm.computedAncestorsCount entry) →
      ∃ q, pm.addEntry entry status = .ok (q, true)) := by
  unfold PoolMap.addEntry PoolMap.recordEntryLinks PoolMap.computedAncestorsCount
  rw [hnone]
  simp only [Option.isSome_none, Bool.false_eq_true, if_false]
  constructor
  · intro hc
    rw [if_pos hc]
  · intro hc
    rw [if_neg hc]
    exact ⟨_, rfl⟩

/-- C4: `add_entry` fails with `ExceededMaximumAncestorsCount` exactly when
the status is `Proposed` and the entry's computed ancestor count exceeds
`max_ancestors_count`; it raises no other error, `Pending`/`Gap` additions
never fail, and a same-id addition returns `Ok(false)` with the pool
unchanged. -/
theorem c4_add_entry_ancestor_cap (pm : PoolMap) (entry : TxEntry) (status : Status) :
    (∀ pe, pm.getById entry.tx.shortId = some pe →
      pm.addEntry entry status = .ok (pm, false)) ∧
    (pm.getById entry.tx.shortId = none →
      (pm.addEntry entry status = .error .exceededMaximumAncestorsCount ↔
        (status = .proposed ∧ pm.maxAncestorsCount < pm.computedAncestorsCount entry))) ∧
    (∀ r, pm.addEntry entry status = .error r → r = .exceededMaximumAncestorsCount) ∧
    (status ≠ .proposed → ∀ r, pm.addEntry entry status ≠ .error r) := by
  have hok : ∀ pe, pm.getById entry.tx.shortId = some pe →
      pm.addEntry entry status = .ok (pm, false) := by
    intro pe hget
    unfold PoolMap.addEntry
    rw [hget]
    rfl
  refine ⟨hok, ?_, ?_, ?_⟩
  · intro hnone
    have hcases := addEntry_none_cases pm entry status hnone
    by_cases hc : status = .proposed ∧ pm.maxAncestorsCount < pm.computedAncestorsCount entry
    · exact iff_of_true (hcases.1 hc) hc
    · obtain ⟨q, hq⟩ := hcases.2 hc
      exact iff_of_false (by simp [hq]) hc
  · intro r hr
    cases hget : pm.getById entry.tx.shortId with
    | some pe => rw [hok pe hget] at hr; exact absurd hr (by simp)
    | none =>
        have hcases := addEntry_none_cases pm entry status hget
        by_cases hc : status = .proposed ∧ pm.maxAncestorsCount < pm.computedAncestorsCount entry
        · rw [hcases.1 hc] at hr
          exact (Except.error.injEq _ _).mp hr |>.symm ▸ rfl
        · obtain ⟨q, hq⟩ := hcases.2 hc
          rw [hq] at hr
          exact absurd hr (by simp)
  · intro hst r hr
    cases hget : pm.getById entry.tx.shortId with
    | some pe => rw [hok pe hget] at hr; exact absurd hr (by simp)
    | none =>
        have hcases := addEntry_none_cases pm entry status hget
        have hc : ¬ (status = .proposed ∧ pm.maxAncestorsCount < pm.computedAncestorsCount entry) := by
          intro h
          exact hst h.1
        obtain ⟨q, hq⟩ := hcases.2 hc
        rw [hq] at hr
        exact absurd hr (by simp)

def poolCap : PoolMap := ((PoolMap.new 1).addEntryD entryA .pending).addEntryD entryB .pending
def txC4 : Tx := ⟨5, [⟨2, 0⟩], 1, [], []⟩
def entryC4 : TxEntry := TxEntry.mkSelf txC4 1 10 3 2

/-- C4 witness: with `max_ancestors_count = 1`, proposing a transaction
with two in-pool ancestors is rejected. -/
theorem c4_add_entry_ancestor_cap_witness :
    poolCap.addEntry entryC4 .proposed = .error .exceededMaximumAncestorsCount :=
  ((c4_add_entry_ancestor_cap poolCap entryC4 .proposed).2.1 (by decide)).mpr
    ⟨rfl, by decide⟩

/- ### Support lemmas for the RBF claims -/

theorem natInsert_nodup {l : List Nat} (h : l.Nodup) (x : Nat) : (natInsert l x).Nodup := by
  unfold natInsert
  by_cases hx : x ∈ l
  · simpa [hx]
  · simp [hx, List.nodup_append, h]

theorem natInsert_ne_nil (l : List Nat) (x : Nat) : natInsert l x ≠ [] := by
  unfold natInsert
  by_cases hx : x ∈ l
  · simp only [hx, if_true]
    intro h
    rw [h] at hx
    exact absurd hx (List.not_mem_nil x)
  · simp [hx]

theorem foldl_natInsert_nodup (xs : List Nat) (l : List Nat) (h : l.Nodup) :
    (xs.foldl natInsert l).Nodup := by
  induction xs generalizing l with
  | nil => exact h
  | cons x rest ih => exact ih _ (natInsert_nodup h x)

theorem findConflictTx_nodup (pm : PoolMap) (tx : Tx) : (pm.findConflictTx tx).Nodup := by
  unfold PoolMap.findConflictTx
  have : ∀ (pts : List OutPoint) (acc : List Nat), acc.Nodup →
      (pts.foldl
        (fun acc pt =>
          match assocLookup pm.edges.inputs pt with
          | some id => natInsert acc id
          | none => acc) acc).Nodup := by
    intro pts
    induction pts with
    | nil => intro acc h; exact h
    | cons pt rest ih =>
        intro acc h
        simp only [List.foldl_cons]
        cases assocLookup pm.edges.inputs pt with
        | some id => exact ih _ (natInsert_nodup h id)
        | none => exact ih _ h
  exact this tx.inputs [] List.nodup_nil

theorem entriesFind_id {l : List PoolEntry} {i : Nat} {pe : PoolEntry}
    (h : entriesFind l i = some pe) : pe.id = i := by
  induction l with
  | nil => exact absurd h (by simp [entriesFind])
  | cons e rest ih =>
      rw [entriesFind] at h
      by_cases he : e.id = i
      · rw [if_pos he] at h
        cases h
        exact he
      · rw [if_neg he] at h
        exact ih h

theorem getById_id {pm : PoolMap} {i : Nat} {pe : PoolEntry}
    (h : pm.getById i = some pe) : pe.id = i :=
  entriesFind_id h

/-- The conflict set of `check_rbf`: the pool entries found by
`find_conflict_tx`. -/
def conflictEntries (pm : PoolMap) (tx : Tx) : List PoolEntry :=
  (pm.findConflictTx tx).filterMap (fun id => pm.getById id)

/-- The descendant entries collected by the conflict loop, one block per
conflict (shared descendants repeated per conflict). -/
def conflictDescEntries (pm : PoolMap) : List PoolEntry → List PoolEntry
  | [] => []
  | c :: rest =>
      ((pm.calcDescendants c.id).filterMap (fun i => pm.getById i)) ++
        conflictDescEntries pm rest

/-- Everything `check_rbf` accumulates in `all_conflicted`. -/
def allConflictedOf (pm : PoolMap) (tx : Tx) : List PoolEntry :=
  conflictEntries pm tx ++ conflictDescEntries pm (conflictEntries pm tx)

/-- The count the claim quantifies rule 3 over: per conflict, itself plus
its descendants (shared descendants counted once per conflict). -/
def replaceTotal (pm : PoolMap) (tx : Tx) : Nat :=
  ((conflictEntries pm tx).map (fun c => (pm.calcDescendants c.id).length + 1)).sum

/-- The bound the claim states for rule 7: the direct conflicts' fees plus
`min_rbf_rate · size`. -/
def claimedRbfFee (pm : PoolMap) (tx : Tx) (rate size : Nat) : Nat :=
  ((conflictEntries pm tx).map (fun c => c.inner.fee)).sum + feeRateFee rate size

/-- The union of the conflicts and all their descendants — the set of
transactions that would actually be replaced. -/
def replacedUnion (pm : PoolMap) (tx : Tx) : List Nat :=
  (conflictEntries pm tx).foldl
    (fun acc c => (pm.calcDescendants c.id).foldl natInsert (natInsert acc c.id)) []

theorem filterMap_getById_ids_nodup (pm : PoolMap) {ids : List Nat} (h : ids.Nodup) :
    ((ids.filterMap (fun id => pm.getById id)).map (fun e => e.id)).Nodup := by
  induction ids with
  | nil => simp
  | cons i rest ih =>
      rw [List.filterMap_cons]
      cases hg : pm.getById i with
      | none => exact ih h.of_cons
      | some pe =>
          simp only [List.map_cons, List.nodup_cons]
          refine ⟨?_, ih h.of_cons⟩
          rw [getById_id hg]
          intro hmem
          obtain ⟨e, he, heid⟩ := List.mem_map.mp hmem
          obtain ⟨j, hj, hje⟩ := List.mem_filterMap.mp he
          have hji : j = i := by rw [← getById_id hje, heid]
          rw [hji] at hj
          exact (List.nodup_cons.mp h).1 hj

theorem mem_filterMap_getById {pm : PoolMap} {ids : List Nat} {e : PoolEntry}
    (h : e ∈ ids.filterMap (fun id => pm.getById id)) : pm.getById e.id = some e := by
  obtain ⟨j, _, hje⟩ := List.mem_filterMap.mp h
  rw [getById_id hje]
  exact hje

theorem mem_conflictDescEntries_getById {pm : PoolMap} {conflicts : List PoolEntry}
    {e : PoolEntry} (h : e ∈ conflictDescEntries pm conflicts) :
    pm.getById e.id = some e := by
  induction conflicts with
  | nil => simp [conflictDescEntries] at h
  | cons c rest ih =>
      rw [conflictDescEntries] at h
      rcases List.mem_append.mp h with h1 | h2
      · exact mem_filterMap_getById h1
      · exact ih h2

/-- The per-conflict replacement count accumulated by the conflict loop:
each conflict contributes itself plus its descendant count. -/
def replaceCountOf (pm : PoolMap) (conflicts : List PoolEntry) : Nat :=
  (conflicts.map (fun c => (pm.calcDescendants c.id).length + 1)).sum

theorem replaceTotal_eq (pm : PoolMap) (tx : Tx) :
    replaceTotal pm tx = replaceCountOf pm (conflictEntries pm tx) := rfl

/-- The per-conflict side conditions of the conflict loop: the new tx's
ancestors are disjoint from the conflict's descendants and none of the new
tx's inputs spends a descendant's output. -/
def RbfGuardsPass (pm : PoolMap) (anc : List Nat) (txIn : List OutPoint)
    (conflicts : List PoolEntry) : Prop :=
  ∀ c ∈ conflicts,
    natDisjoint (pm.calcDescendants c.id) anc = true ∧
    ((pm.calcDescendants c.id).filterMap (fun i => pm.getById i)).any
      (fun e => txIn.any (fun pt => decide (pt.txHash = e.inner.tx.hash))) = false

instance (pm : PoolMap) (anc : List Nat) (txIn : List OutPoint) (conflicts : List PoolEntry) :
    Decidable (RbfGuardsPass pm anc txIn conflicts) := by
  unfold RbfGuardsPass
  infer_instance

theorem rbfLoop_ok_shape (pm : PoolMap) (anc : List Nat) (txIn : List OutPoint) :
    ∀ (conflicts : List PoolEntry) (rc : Nat) (acc out : List PoolEntry),
      rbfLoop pm anc txIn conflicts rc acc = .ok out →
      out = acc ++ conflictDescEntries pm conflicts := by
  intro conflicts
  induction conflicts with
  | nil =>
      intro rc acc out h
      rw [rbfLoop] at h
      cases h
      simp [conflictDescEntries]
  | cons c rest ih =>
      intro rc acc out h
      rw [rbfLoop] at h
      by_cases h1 : MAX_REPLACEMENT_CANDIDATES < rc + (pm.calcDescendants c.id).length + 1
      · rw [if_pos h1] at h
        exact absurd h (by simp)
      · rw [if_neg h1] at h
        by_cases h2 : ¬ natDisjoint (pm.calcDescendants c.id) anc
        · rw [if_pos h2] at h
          exact absurd h (by simp)
        · rw [if_neg h2] at h
          by_cases h3 : ((pm.calcDescendants c.id).filterMap (fun i => pm.getById i)).any
              (fun e => txIn.any (fun pt => decide (pt.txHash = e.inner.tx.hash)))
          · rw [if_pos h3] at h
            exact absurd h (by simp)
          · rw [if_neg h3] at h
            rw [ih _ _ _ h, conflictDescEntries]
            simp [List.append_assoc]

theorem rbfLoop_tooMany_sum (pm : PoolMap) (anc : List Nat) (txIn : List OutPoint) :
    ∀ (conflicts : List PoolEntry) (rc : Nat) (acc : List PoolEntry) (n : Nat),
      rbfLoop pm anc txIn conflicts rc acc =
        .error (.rbfRejected (.tooMany n MAX_REPLACEMENT_CANDIDATES)) →
      MAX_REPLACEMENT_CANDIDATES < rc + replaceCountOf pm conflicts := by
  intro conflicts
  induction conflicts with
  | nil =>
      intro rc acc n h
      rw [rbfLoop] at h
      exact absurd h (by simp)
  | cons c rest ih =>
      intro rc acc n h
      rw [rbfLoop] at h
      have hrc : replaceCountOf pm (c :: rest) =
          ((pm.calcDescendants c.id).length + 1) + replaceCountOf pm rest := by
        simp [replaceCountOf]
      by_cases h1 : MAX_REPLACEMENT_CANDIDATES < rc + (pm.calcDescendants c.id).length + 1
      · rw [hrc]
        omega
      · rw [if_neg h1] at h
        by_cases h2 : ¬ natDisjoint (pm.calcDescendants c.id) anc
        · rw [if_pos h2] at h
          exact absurd h (by simp)
        · rw [if_neg h2] at h
          by_cases h3 : ((pm.calcDescendants c.id).filterMap (fun i => pm.getById i)).any
              (fun e => txIn.any (fun pt => decide (pt.txHash = e.inner.tx.hash)))
          · rw [if_pos h3] at h
            exact absurd h (by simp)
          · rw [if_neg h3] at h
            have := ih _ _ _ h
            rw [hrc]
            omega

theorem rbfLoop_tooMany_complete (pm : PoolMap) (anc : List Nat) (txIn : List OutPoint) :
    ∀ (conflicts : List PoolEntry) (rc : Nat) (acc : List PoolEntry),
      RbfGuardsPass pm anc txIn conflicts →
      rc ≤ MAX_REPLACEMENT_CANDIDATES →
      MAX_REPLACEMENT_CANDIDATES < rc + replaceCountOf pm conflicts →
      ∃ n, rbfLoop pm anc txIn conflicts rc acc =
        .error (.rbfRejected (.tooMany n MAX_REPLACEMENT_CANDIDATES)) := by
  intro conflicts
  induction conflicts with
  | nil =>
      intro rc acc _ hle hgt
      rw [replaceCountOf] at hgt
      simp at hgt
      omega
  | cons c rest ih =>
      intro rc acc hg hle hgt
      have hrc : replaceCountOf pm (c :: rest) =
          ((pm.calcDescendants c.id).length + 1) + replaceCountOf pm rest := by
        simp [replaceCountOf]
      by_cases h1 : MAX_REPLACEMENT_CANDIDATES < rc + (pm.calcDescendants c.id).length + 1
      · refine ⟨rc + (pm.calcDescendants c.id).length + 1, ?_⟩
        rw [rbfLoop, if_pos h1]
      · have hgc := hg c (List.mem_cons_self c rest)
        have h2 : ¬ ¬ natDisjoint (pm.calcDescendants c.id) anc := by
          simp [hgc.1]
        have h3 : ¬ ((pm.calcDescendants c.id).filterMap (fun i => pm.getById i)).any
            (fun e => txIn.any (fun pt => decide (pt.txHash = e.inner.tx.hash))) = true := by
          simp [hgc.2]
        obtain ⟨n, hn⟩ := ih (rc + (pm.calcDescendants c.id).length + 1)
          (acc ++ (pm.calcDescendants c.id).filterMap (fun i => pm.getById i))
          (fun d hd => hg d (List.mem_cons_of_mem c hd))
          (by omega) (by rw [hrc] at hgt; omega)
        refine ⟨n, ?_⟩
        rw [rbfLoop, if_neg h1, if_neg h2, if_neg h3]
        exact hn

theorem rbfLoop_ok_of_guards (pm : PoolMap) (anc : List Nat) (txIn : List OutPoint) :
    ∀ (conflicts : List PoolEntry) (rc : Nat) (acc : List PoolEntry),
      RbfGuardsPass pm anc txIn conflicts →
      rc + replaceCountOf pm conflicts ≤ MAX_REPLACEMENT_CANDIDATES →
      rbfLoop pm anc txIn conflicts rc acc = .ok (acc ++ conflictDescEntries pm conflicts) := by
  intro conflicts
  induction conflicts with
  | nil =>
      intro rc acc _ _
      rw [rbfLoop]
      simp [conflictDescEntries]
  | cons c rest ih =>
      intro rc acc hg hle
      have hrc : replaceCountOf pm (c :: rest) =
          ((pm.calcDescendants c.id).length + 1) + replaceCountOf pm rest := by
        simp [replaceCountOf]
      rw [hrc] at hle
      have hgc := hg c (List.mem_cons_self c rest)
      have h1 : ¬ MAX_REPLACEMENT_CANDIDATES < rc + (pm.calcDescendants c.id).length + 1 := by
        omega
      have h2 : ¬ ¬ natDisjoint (pm.calcDescendants c.id) anc := by
        simp [hgc.1]
      have h3 : ¬ ((pm.calcDescendants c.id).filterMap (fun i => pm.getById i)).any
          (fun e => txIn.any (fun pt => decide (pt.txHash = e.inner.tx.hash))) = true := by
        simp [hgc.2]
      rw [rbfLoop, if_neg h1, if_neg h2, if_neg h3]
      rw [ih _ _ (fun d hd => hg d (List.mem_cons_of_mem c hd)) (by omega)]
      rw [conflictDescEntries]
      simp [List.append_assoc]

theorem safeSum_eq {l : List Nat} {s : Nat} (h : safeSum l = some s) : s = l.sum := by
  induction l generalizing s with
  | nil =>
      rw [safeSum] at h
      cases h
      rfl
  | cons f rest ih =>
      rw [safeSum] at h
      cases hs : safeSum rest with
      | none => rw [hs] at h; exact absurd h (by simp)
      | some s' =>
          rw [hs] at h
          dsimp only at h
          unfold safeAdd at h
          by_cases hb : s' + f < 2 ^ 64
          · rw [if_pos hb] at h
            cases h
            rw [ih hs]
            simp [Nat.add_comm]
          · rw [if_neg hb] at h
            exact absurd h (by simp)

theorem assocRemove_sublist {α β : Type} [DecidableEq α] (l : List (α × β)) (k : α) :
    (assocRemove l k).Sublist l := by
  induction l with
  | nil => simp [assocRemove]
  | cons p rest ih =>
      obtain ⟨pk, pv⟩ := p
      rw [assocRemove]
      by_cases h : pk = k
      · rw [if_pos h]
        exact ih.cons _
      · rw [if_neg h]
        exact ih.cons₂ _

theorem not_mem_assocRemove_keys {α β : Type} [DecidableEq α] (l : List (α × β)) (k : α) :
    k ∉ (assocRemove l k).map Prod.fst := by
  induction l with
  | nil => simp [assocRemove]
  | cons p rest ih =>
      obtain ⟨pk, pv⟩ := p
      rw [assocRemove]
      by_cases h : pk = k
      · rw [if_pos h]
        exact ih
      · rw [if_neg h]
        simp only [List.map_cons, List.mem_cons]
        intro hc
        rcases hc with hc | hc
        · exact h hc.symm
        · exact ih hc

theorem assocRemove_eq_self {α β : Type} [DecidableEq α] {l : List (α × β)} {k : α}
    (h : k ∉ l.map Prod.fst) : assocRemove l k = l := by
  induction l with
  | nil => rfl
  | cons p rest ih =>
      obtain ⟨pk, pv⟩ := p
      simp only [List.map_cons, List.mem_cons] at h
      push_neg at h
      rw [assocRemove, if_neg (fun hc => h.1 hc.symm), ih h.2]

theorem assocInsert_keys_nodup {α β : Type} [DecidableEq α] {l : List (α × β)}
    (h : (l.map Prod.fst).Nodup) (k : α) (v : β) :
    ((assocInsert l k v).map Prod.fst).Nodup := by
  unfold assocInsert
  rw [List.map_append]
  rw [List.nodup_append]
  refine ⟨((assocRemove_sublist l k).map Prod.fst).nodup h, by simp, ?_⟩
  intro a ha hb
  simp at hb
  rw [hb] at ha
  exact not_mem_assocRemove_keys l k ha

/-- Inserting a binding that agrees with the value function keeps the
binding-consistency invariant. -/
theorem assocInsert_consistent {β : Type} {val : Nat → β} {l : List (Nat × β)}
    (h : ∀ p ∈ l, p.2 = val p.1) (k : Nat) :
    ∀ p ∈ assocInsert l k (val k), p.2 = val p.1 := by
  intro p hp
  unfold assocInsert at hp
  rcases List.mem_append.mp hp with hp | hp
  · exact h p ((assocRemove_sublist l k).mem hp)
  · simp at hp
    rw [hp]

/-- With duplicate-free keys and consistent bindings, an insert can only
grow the sum of the values. -/
theorem sum_le_assocInsert {val : Nat → Nat} {l : List (Nat × Nat)}
    (hnd : (l.map Prod.fst).Nodup) (hc : ∀ p ∈ l, p.2 = val p.1) (k : Nat) :
    (l.map Prod.snd).sum ≤ ((assocInsert l k (val k)).map Prod.snd).sum := by
  unfold assocInsert
  rw [List.map_append, List.sum_append]
  simp only [List.map_cons, List.map_nil, List.sum_cons, List.sum_nil]
  have key : (l.map Prod.snd).sum ≤ ((assocRemove l k).map Prod.snd).sum + val k := by
    induction l with
    | nil => simp [assocRemove]
    | cons p rest ih =>
        obtain ⟨pk, pv⟩ := p
        rw [assocRemove]
        by_cases h : pk = k
        · rw [if_pos h]
          subst h
          have hrest : assocRemove rest pk = rest := by
            apply assocRemove_eq_self
            simp only [List.map_cons, List.nodup_cons] at hnd
            exact hnd.1
          rw [hrest]
          have hv : pv = val pk := hc (pk, pv) (List.mem_cons_self _ _)
          simp only [List.map_cons, List.sum_cons]
          omega
        · rw [if_neg h]
          simp only [List.map_cons, List.sum_cons]
          have := ih (by simp only [List.map_cons, List.nodup_cons] at hnd; exact hnd.2)
            (fun p hp => hc p (List.mem_cons_of_mem _ hp))
          omega
  omega

/-- Folding consistent inserts over a consistent, duplicate-free map can
only grow the sum of the values. -/
theorem sum_le_foldl_assocInsert {val : Nat → Nat} :
    ∀ (pairs : List (Nat × Nat)) (A : List (Nat × Nat)),
      (A.map Prod.fst).Nodup → (∀ p ∈ A, p.2 = val p.1) →
      (∀ p ∈ pairs, p.2 = val p.1) →
      (A.map Prod.snd).sum ≤
        ((pairs.foldl (fun m p => assocInsert m p.1 p.2) A).map Prod.snd).sum := by
  intro pairs
  induction pairs with
  | nil => intro A _ _ _; simp
  | cons p rest ih =>
      intro A hnd hcA hcP
      obtain ⟨pk, pv⟩ := p
      have hpv : pv = val pk := hcP (pk, pv) (List.mem_cons_self _ _)
      simp only [List.foldl_cons]
      have h1 : (A.map Prod.snd).sum ≤ ((assocInsert A pk pv).map Prod.snd).sum := by
        rw [hpv]
        exact sum_le_assocInsert hnd hcA pk
      have h2 := ih (assocInsert A pk pv)
        (by rw [hpv]; exact assocInsert_keys_nodup hnd pk (val pk))
        (by rw [hpv]; exact assocInsert_consistent hcA pk)
        (fun q hq => hcP q (List.mem_cons_of_mem _ hq))
      omega

/-- Inserting a run of fresh, duplicate-free keys appends them verbatim. -/
theorem foldl_assocInsert_fresh {β : Type} :
    ∀ (pairs : List (Nat × β)) (A : List (Nat × β)),
      (pairs.map Prod.fst).Nodup →
      (∀ k ∈ pairs.map Prod.fst, k ∉ A.map Prod.fst) →
      pairs.foldl (fun m p => assocInsert m p.1 p.2) A = A ++ pairs := by
  intro pairs
  induction pairs with
  | nil => intro A _ _; simp
  | cons p rest ih =>
      intro A hnd hfresh
      obtain ⟨pk, pv⟩ := p
      simp only [List.foldl_cons]
      have hA : assocInsert A pk pv = A ++ [(pk, pv)] := by
        unfold assocInsert
        rw [assocRemove_eq_self (hfresh pk (by simp))]
      rw [hA]
      rw [ih (A ++ [(pk, pv)])
        (by simp only [List.map_cons, List.nodup_cons] at hnd; exact hnd.2)
        ?_]
      · simp
      · intro k hk
        simp only [List.map_append, List.mem_append]
        push_neg
        constructor
        · exact hfresh k (by simp [hk])
        · simp only [List.map_cons, List.map_nil, List.mem_singleton]
          intro hc
          simp only [List.map_cons, List.nodup_cons] at hnd
          rw [hc] at hk
          exact hnd.1 hk

/-- The fee of the pool entry with a given id (0 when absent); the common
value of every binding the dedup map of `calculate_min_replace_fee` sees. -/
def feeAt (pm : PoolMap) (k : Nat) : Nat :=
  match pm.getById k with
  | some pe => pe.inner.fee
  | none => 0

theorem feeAt_of_getById {pm : PoolMap} {e : PoolEntry} (h : pm.getById e.id = some e) :
    feeAt pm e.id = e.inner.fee := by
  unfold feeAt
  rw [h]

/-- The code's minimum replacement fee dominates the claim's bound: the
dedup map over `all_conflicted` contains every direct conflict's fee. -/
theorem claimed_le_minReplaceFee (pm : PoolMap) (tx : Tx) (rate size m : Nat)
    (h : calculateMinReplaceFee (allConflictedOf pm tx) size rate = some m) :
    claimedRbfFee pm tx rate size ≤ m := by
  unfold calculateMinReplaceFee at h
  rw [show (allConflictedOf pm tx).foldl (fun m c => assocInsert m c.id c.inner.fee) [] =
      ((allConflictedOf pm tx).map (fun c => (c.id, c.inner.fee))).foldl
        (fun m p => assocInsert m p.1 p.2) [] by rw [List.foldl_map]] at h
  have hsplit : (allConflictedOf pm tx).map (fun c => (c.id, c.inner.fee)) =
      ((conflictEntries pm tx).map (fun c => (c.id, c.inner.fee))) ++
        ((conflictDescEntries pm (conflictEntries pm tx)).map (fun c => (c.id, c.inner.fee))) := by
    rw [allConflictedOf, List.map_append]
  rw [hsplit, List.foldl_append] at h
  have hconfKeys : (((conflictEntries pm tx).map (fun c => (c.id, c.inner.fee))).map
      Prod.fst).Nodup := by
    rw [List.map_map]
    exact filterMap_getById_ids_nodup pm (findConflictTx_nodup pm tx)
  have hbase : ((conflictEntries pm tx).map (fun c => (c.id, c.inner.fee))).foldl
      (fun m p => assocInsert m p.1 p.2) [] =
      (conflictEntries pm tx).map (fun c => (c.id, c.inner.fee)) := by
    rw [foldl_assocInsert_fresh _ [] hconfKeys (by simp)]
    simp
  rw [hbase] at h
  dsimp only at h
  have hconfCons : ∀ p ∈ (conflictEntries pm tx).map (fun c => (c.id, c.inner.fee)),
      p.2 = feeAt pm p.1 := by
    intro p hp
    obtain ⟨c, hc, hcp⟩ := List.mem_map.mp hp
    rw [← hcp]
    exact (feeAt_of_getById (mem_filterMap_getById hc)).symm
  have hextraCons : ∀ p ∈ (conflictDescEntries pm (conflictEntries pm tx)).map
      (fun c => (c.id, c.inner.fee)), p.2 = feeAt pm p.1 := by
    intro p hp
    obtain ⟨c, hc, hcp⟩ := List.mem_map.mp hp
    rw [← hcp]
    exact (feeAt_of_getById (mem_conflictDescEntries_getById hc)).symm
  have hsum := sum_le_foldl_assocInsert
    ((conflictDescEntries pm (conflictEntries pm tx)).map (fun c => (c.id, c.inner.fee)))
    ((conflictEntries pm tx).map (fun c => (c.id, c.inner.fee)))
    hconfKeys hconfCons hextraCons
  have hconfSum : (((conflictEntries pm tx).map (fun c => (c.id, c.inner.fee))).map
      Prod.snd).sum = ((conflictEntries pm tx).map (fun c => c.inner.fee)).sum := by
    rw [List.map_map]
    rfl
  rw [hconfSum] at hsum
  cases hs : safeSum ((((conflictDescEntries pm (conflictEntries pm tx)).map
      (fun c => (c.id, c.inner.fee))).foldl (fun m p => assocInsert m p.1 p.2)
      ((conflictEntries pm tx).map (fun c => (c.id, c.inner.fee)))).map
      (fun p => p.2)) with
  | none => rw [hs] at h; exact absurd h (by simp)
  | some s =>
      rw [hs] at h
      dsimp only at h
      unfold safeAdd at h
      by_cases hb : s + feeRateFee rate size < 2 ^ 64
      · rw [if_pos hb] at h
        cases h
        have hseq := safeSum_eq hs
        unfold claimedRbfFee
        have : ((((conflictDescEntries pm (conflictEntries pm tx)).map
            (fun c => (c.id, c.inner.fee))).foldl (fun m p => assocInsert m p.1 p.2)
            ((conflictEntries pm tx).map (fun c => (c.id, c.inner.fee)))).map
            (fun p => p.2)).sum =
            ((((conflictDescEntries pm (conflictEntries pm tx)).map
            (fun c => (c.id, c.inner.fee))).foldl (fun m p => assocInsert m p.1 p.2)
            ((conflictEntries pm tx).map (fun c => (c.id, c.inner.fee)))).map
            Prod.snd).sum := rfl
        rw [hseq, this]
        omega
      · rw [if_neg hb] at h
        exact absurd h (by simp)

/-- C3 (amended): `check_rbf` rejects with the too-many-txs message only
when the running replacement count — per conflict, itself plus all of its
descendants, shared descendants counted once per conflict — exceeds
`MAX_REPLACEMENT_CANDIDATES`; and it does reject with this message whenever
that count exceeds the bound, provided rule 2 passes and no conflict
triggers the ancestor-overlap or descendant-input rules first. Because the
count is a per-conflict sum and not the size of the union, it can exceed
100 while the union stays at or below 100. -/
theorem c3_rbf_bounded_replacement (pm : PoolMap) (snapshot : Snapshot) (rate : Nat)
    (entry : TxEntry) :
    (∀ n, checkRbf pm snapshot rate entry =
        .error (.rbfRejected (.tooMany n MAX_REPLACEMENT_CANDIDATES)) →
      MAX_REPLACEMENT_CANDIDATES < replaceTotal pm entry.tx) ∧
    (rbfHasUnconfirmedInput snapshot (conflictEntries pm entry.tx) entry.tx.inputs = false →
      RbfGuardsPass pm (pm.calcAncestors entry.tx.shortId) entry.tx.inputs
        (conflictEntries pm entry.tx) →
      MAX_REPLACEMENT_CANDIDATES < replaceTotal pm entry.tx →
      ∃ n, checkRbf pm snapshot rate entry =
        .error (.rbfRejected (.tooMany n MAX_REPLACEMENT_CANDIDATES))) := by
  constructor
  · intro n h
    unfold checkRbf at h
    by_cases hids : pm.findConflictTx entry.tx = []
    · rw [if_pos hids] at h
      exact absurd h (by simp)
    · rw [if_neg hids] at h
      dsimp only at h
      by_cases hr2 : rbfHasUnconfirmedInput snapshot
          ((pm.findConflictTx entry.tx).filterMap (fun id => pm.getById id)) entry.tx.inputs
      · rw [if_pos hr2] at h
        exact absurd h (by simp)
      · rw [if_neg hr2] at h
        cases hloop : rbfLoop pm (pm.calcAncestors entry.tx.shortId) entry.tx.inputs
            ((pm.findConflictTx entry.tx).filterMap (fun id => pm.getById id)) 0
            ((pm.findConflictTx entry.tx).filterMap (fun id => pm.getById id)) with
        | error r =>
            rw [hloop] at h
            dsimp only at h
            cases h
            have := rbfLoop_tooMany_sum pm (pm.calcAncestors entry.tx.shortId)
              entry.tx.inputs _ _ _ _ hloop
            rw [replaceTotal_eq]
            unfold conflictEntries
            omega
        | ok allC =>
            rw [hloop] at h
            dsimp only at h
            by_cases hcd : allC.any
                (fun e => entry.tx.cellDeps.any (fun pt => decide (pt.txHash = e.inner.tx.hash)))
            · rw [if_pos hcd] at h
              exact absurd h (by simp)
            · rw [if_neg hcd] at h
              cases hm : calculateMinReplaceFee allC entry.size rate with
              | none =>
                  rw [hm] at h
                  exact absurd h (by simp)
              | some mrf =>
                  rw [hm] at h
                  dsimp only at h
                  by_cases hlt : entry.fee < mrf
                  · rw [if_pos hlt] at h
                    exact absurd h (by simp)
                  · rw [if_neg hlt] at h
                    exact absurd h (by simp)
  · intro hr2 hguards htot
    have hce : conflictEntries pm entry.tx =
        (pm.findConflictTx entry.tx).filterMap (fun id => pm.getById id) := rfl
    have hids : ¬ pm.findConflictTx entry.tx = [] := by
      intro he
      rw [replaceTotal_eq] at htot
      rw [hce, he] at htot
      simp [replaceCountOf, MAX_REPLACEMENT_CANDIDATES] at htot
    obtain ⟨n, hn⟩ := rbfLoop_tooMany_complete pm (pm.calcAncestors entry.tx.shortId)
      entry.tx.inputs (conflictEntries pm entry.tx) 0 (conflictEntries pm entry.tx)
      hguards (by simp [MAX_REPLACEMENT_CANDIDATES])
      (by rw [replaceTotal_eq] at htot; omega)
    refine ⟨n, ?_⟩
    unfold checkRbf
    rw [if_neg hids]
    dsimp only
    have hr2' : rbfHasUnconfirmedInput snapshot
        ((pm.findConflictTx entry.tx).filterMap (fun id => pm.getById id))
        entry.tx.inputs = false := hr2
    rw [if_neg (by simp [hr2'])]
    have hn' : rbfLoop pm (pm.calcAncestors entry.tx.shortId) entry.tx.inputs
        ((pm.findConflictTx entry.tx).filterMap (fun id => pm.getById id)) 0
        ((pm.findConflictTx entry.tx).filterMap (fun id => pm.getById id)) =
        .error (.rbfRejected (.tooMany n MAX_REPLACEMENT_CANDIDATES)) := hn
    rw [hn']

def c3ConflictTx (i : Nat) : Tx := ⟨101 + i, [⟨1001 + i, 0⟩], 1, [], []⟩
def c3D1Tx : Tx := ⟨111, (List.range 10).map (fun i => ⟨101 + i, 0⟩), 1, [], []⟩
def c3DTx (j : Nat) : Tx := ⟨112 + j, [⟨111 + j, 0⟩], 1, [], []⟩

/-- Ten conflicts (hashes 101..110) sharing a ten-deep descendant chain
(111..120): the loop's replacement count reaches 10 · 11 = 110, while the
union of conflicts and descendants has only 20 transactions. -/
def poolC3 : PoolMap :=
  (List.range 9).foldl
    (fun q j => q.addEntryD (TxEntry.mkSelf (c3DTx j) 1 10 5 (30 + j)) .pending)
    (((List.range 10).foldl
        (fun q i => q.addEntryD (TxEntry.mkSelf (c3ConflictTx i) 1 10 5 i) .pending)
        (PoolMap.new 125)).addEntryD (TxEntry.mkSelf c3D1Tx 1 10 5 20) .pending)

def newTxC3 : Tx := ⟨200, (List.range 10).map (fun i => ⟨1001 + i, 0⟩), 1, [], []⟩
def entryNewC3 : TxEntry := TxEntry.mkSelf newTxC3 1 10 1000 50
def snapC3 : Snapshot := ⟨[]⟩

set_option maxRecDepth 40000 in
/-- C3 counterexample: the set of transactions to be replaced (conflicts
with all their descendants) has 20 ≤ 100 members, yet `check_rbf` rejects
with the too-many-txs message, because the code accumulates
`descendants.len() + 1` per conflict without deduplicating shared
descendants (here 10 · (10 + 1) = 110 > 100). -/
theorem c3_counterexample :
    (replacedUnion poolC3 newTxC3).length = 20 ∧
    ¬ MAX_REPLACEMENT_CANDIDATES < (replacedUnion poolC3 newTxC3).length ∧
    checkRbf poolC3 snapC3 1500 entryNewC3 =
      .error (.rbfRejected (.tooMany 110 MAX_REPLACEMENT_CANDIDATES)) := by
  decide

set_option maxRecDepth 40000 in
/-- C3 witness: the amended bound instantiated on the shared-descendants
pool. -/
theorem c3_rbf_bounded_replacement_witness :
    ∃ n, checkRbf poolC3 snapC3 1500 entryNewC3 =
      .error (.rbfRejected (.tooMany n MAX_REPLACEMENT_CANDIDATES)) :=
  (c3_rbf_bounded_replacement poolC3 snapC3 1500 entryNewC3).2 (by decide) (by decide)
    (by decide)

/-- C2 (amended): a successful `check_rbf` with a non-empty conflict set
implies the new fee is at least the claim's bound (the direct conflicts'
fees plus `min_rbf_rate · size`); and when the fee is below that bound —
provided no earlier RBF rule (unconfirmed inputs, bounded replacement,
ancestor overlap, descendant-input reuse, cell-dep reuse) rejects first and
the checked fee addition does not overflow — `check_rbf` rejects with the
fee message, whose minimum `m` also counts the conflicts' descendants'
fees and therefore dominates the claimed bound. -/
theorem c2_rbf_fee_bound (pm : PoolMap) (snapshot : Snapshot) (rate : Nat)
    (entry : TxEntry) :
    (∀ ids, checkRbf pm snapshot rate entry = .ok ids → ids ≠ [] →
      claimedRbfFee pm entry.tx rate entry.size ≤ entry.fee) ∧
    (∀ m, conflictEntries pm entry.tx ≠ [] →
      rbfHasUnconfirmedInput snapshot (conflictEntries pm entry.tx) entry.tx.inputs = false →
      RbfGuardsPass pm (pm.calcAncestors entry.tx.shortId) entry.tx.inputs
        (conflictEntries pm entry.tx) →
      replaceTotal pm entry.tx ≤ MAX_REPLACEMENT_CANDIDATES →
      (allConflictedOf pm entry.tx).any
        (fun e => entry.tx.cellDeps.any (fun pt => decide (pt.txHash = e.inner.tx.hash))) =
        false →
      calculateMinReplaceFee (allConflictedOf pm entry.tx) entry.size rate = some m →
      entry.fee < claimedRbfFee pm entry.tx rate entry.size →
      checkRbf pm snapshot rate entry = .error (.rbfRejected (.feeTooLow entry.fee m)) ∧
        claimedRbfFee pm entry.tx rate entry.size ≤ m) := by
  constructor
  · intro ids hok hne
    unfold checkRbf at hok
    by_cases hids : pm.findConflictTx entry.tx = []
    · rw [if_pos hids, hids] at hok
      cases hok
      exact absurd rfl hne
    · rw [if_neg hids] at hok
      dsimp only at hok
      by_cases hr2 : rbfHasUnconfirmedInput snapshot
          ((pm.findConflictTx entry.tx).filterMap (fun id => pm.getById id)) entry.tx.inputs
      · rw [if_pos hr2] at hok
        exact absurd hok (by simp)
      · rw [if_neg hr2] at hok
        cases hloop : rbfLoop pm (pm.calcAncestors entry.tx.shortId) entry.tx.inputs
            ((pm.findConflictTx entry.tx).filterMap (fun id => pm.getById id)) 0
            ((pm.findConflictTx entry.tx).filterMap (fun id => pm.getById id)) with
        | error r =>
            rw [hloop] at hok
            exact absurd hok (by simp)
        | ok allC =>
            rw [hloop] at hok
            dsimp only at hok
            by_cases hcd : allC.any
                (fun e => entry.tx.cellDeps.any (fun pt => decide (pt.txHash = e.inner.tx.hash)))
            · rw [if_pos hcd] at hok
              exact absurd hok (by simp)
            · rw [if_neg hcd] at hok
              cases hm : calculateMinReplaceFee allC entry.size rate with
              | none =>
                  rw [hm] at hok
                  exact absurd hok (by simp)
              | some mrf =>
                  rw [hm] at hok
                  dsimp only at hok
                  by_cases hlt : entry.fee < mrf
                  · rw [if_pos hlt] at hok
                    exact absurd hok (by simp)
                  · have hall : allC = allConflictedOf pm entry.tx := by
                      rw [rbfLoop_ok_shape pm _ _ _ _ _ _ hloop]
                      rfl
                    rw [hall] at hm
                    have := claimed_le_minReplaceFee pm entry.tx rate entry.size mrf hm
                    omega
  · intro m hne hr2 hguards htot hcd hmrf hlt
    have hce : conflictEntries pm entry.tx =
        (pm.findConflictTx entry.tx).filterMap (fun id => pm.getById id) := rfl
    have hids : ¬ pm.findConflictTx entry.tx = [] := by
      intro he
      apply hne
      rw [hce, he]
      rfl
    have hloopok := rbfLoop_ok_of_guards pm (pm.calcAncestors entry.tx.shortId)
      entry.tx.inputs (conflictEntries pm entry.tx) 0 (conflictEntries pm entry.tx)
      hguards (by rw [replaceTotal_eq] at htot; omega)
    have hclaim := claimed_le_minReplaceFee pm entry.tx rate entry.size m hmrf
    refine ⟨?_, hclaim⟩
    unfold checkRbf
    rw [if_neg hids]
    dsimp only
    have hr2' : rbfHasUnconfirmedInput snapshot
        ((pm.findConflictTx entry.tx).filterMap (fun id => pm.getById id))
        entry.tx.inputs = false := hr2
    rw [if_neg (by simp [hr2'])]
    have hloopok' : rbfLoop pm (pm.calcAncestors entry.tx.shortId) entry.tx.inputs
        ((pm.findConflictTx entry.tx).filterMap (fun id => pm.getById id)) 0
        ((pm.findConflictTx entry.tx).filterMap (fun id => pm.getById id)) =
        .ok (conflictEntries pm entry.tx ++
          conflictDescEntries pm (conflictEntries pm entry.tx)) := hloopok
    rw [hloopok']
    dsimp only
    have hcd' : (conflictEntries pm entry.tx ++
        conflictDescEntries pm (conflictEntries pm entry.tx)).any
        (fun e => entry.tx.cellDeps.any (fun pt => decide (pt.txHash = e.inner.tx.hash))) =
        false := hcd
    rw [if_neg (by simp [hcd'])]
    have hmrf' : calculateMinReplaceFee (conflictEntries pm entry.tx ++
        conflictDescEntries pm (conflictEntries pm entry.tx)) entry.size rate =
        some m := hmrf
    rw [hmrf']
    dsimp only
    rw [if_pos (show entry.fee < m by omega)]

def txConfC2 : Tx := ⟨301, [⟨2000, 0⟩], 1, [], []⟩
def poolC2 : PoolMap :=
  (PoolMap.new 125).addEntryD (TxEntry.mkSelf txConfC2 1 10 50 0) .pending
def snapC2 : Snapshot := ⟨[]⟩
def newTxC2x : Tx := ⟨300, [⟨2000, 0⟩, ⟨3000, 0⟩], 1, [], []⟩
def entryNewC2x : TxEntry := TxEntry.mkSelf newTxC2x 1 10 0 5
def newTxC2w : Tx := ⟨310, [⟨2000, 0⟩], 1, [], []⟩
def entryNewC2w : TxEntry := TxEntry.mkSelf newTxC2w 1 10 10 5

/-- C2 counterexample: the new entry's fee (0) is far below the claimed
bound (100) and its inputs conflict with a pool entry, yet `check_rbf`
rejects with the unconfirmed-inputs message rather than the fee message,
because rule 2 is checked before the fee bound. -/
theorem c2_counterexample :
    entryNewC2x.fee < claimedRbfFee poolC2 newTxC2x 5 entryNewC2x.size ∧
    conflictEntries poolC2 newTxC2x ≠ [] ∧
    checkRbf poolC2 snapC2 5 entryNewC2x = .error (.rbfRejected .unconfirmedInputs) := by
  decide

/-- C2 witness: the amended fee rule instantiated on a concrete pool — a
fee of 10 against a bound of 60 is rejected with the fee message. -/
theorem c2_rbf_fee_bound_witness :
    checkRbf poolC2 snapC2 1 entryNewC2w = .error (.rbfRejected (.feeTooLow 10 60)) :=
  ((c2_rbf_fee_bound poolC2 snapC2 1 entryNewC2w).2 60 (by decide) (by decide) (by decide)
    (by decide) (by decide) (by decide) (by decide)).1

/- ### Support lemmas for the detached-proposal claim -/

theorem entriesFind_append_some {l1 l2 : List PoolEntry} {i : Nat} {e : PoolEntry}
    (h : entriesFind l1 i = some e) : entriesFind (l1 ++ l2) i = some e := by
  induction l1 with
  | nil => exact absurd h (by simp [entriesFind])
  | cons x rest ih =>
      rw [entriesFind] at h
      rw [List.cons_append, entriesFind]
      by_cases hx : x.id = i
      · rw [if_pos hx] at h ⊢
        exact h
      · rw [if_neg hx] at h ⊢
        exact ih h

theorem entriesFind_append_none {l1 l2 : List PoolEntry} {i : Nat}
    (h : entriesFind l1 i = none) : entriesFind (l1 ++ l2) i = entriesFind l2 i := by
  induction l1 with
  | nil => rfl
  | cons x rest ih =>
      rw [entriesFind] at h
      rw [List.cons_append, entriesFind]
      by_cases hx : x.id = i
      · rw [if_pos hx] at h
        exact absurd h (by simp)
      · rw [if_neg hx] at h ⊢
        exact ih h

theorem entriesFind_entriesRemove_ne {l : List PoolEntry} {i j : Nat} (hne : j ≠ i) :
    entriesFind (entriesRemove l j) i = entriesFind l i := by
  induction l with
  | nil => rfl
  | cons x rest ih =>
      rw [entriesRemove, entriesFind]
      by_cases hx : x.id = j
      · rw [if_pos hx, ih, if_neg (by rw [hx]; exact hne)]
      · rw [if_neg hx, entriesFind]
        by_cases hxi : x.id = i
        · rw [if_pos hxi, if_pos hxi]
        · rw [if_neg hxi, if_neg hxi, ih]

theorem entriesFind_entriesRemove_self (l : List PoolEntry) (i : Nat) :
    entriesFind (entriesRemove l i) i = none := by
  induction l with
  | nil => rfl
  | cons x rest ih =>
      rw [entriesRemove]
      by_cases hx : x.id = i
      · rw [if_pos hx]
        exact ih
      · rw [if_neg hx, entriesFind, if_neg hx]
        exact ih

theorem mem_entriesRemove {l : List PoolEntry} {i : Nat} {e : PoolEntry}
    (h : e ∈ entriesRemove l i) : e ∈ l := by
  induction l with
  | nil => exact absurd h (by simp [entriesRemove])
  | cons x rest ih =>
      rw [entriesRemove] at h
      by_cases hx : x.id = i
      · rw [if_pos hx] at h
        exact List.mem_cons_of_mem _ (ih h)
      · rw [if_neg hx] at h
        rcases List.mem_cons.mp h with h | h
        · rw [h]; exact List.mem_cons_self _ _
        · exact List.mem_cons_of_mem _ (ih h)

theorem entriesFind_mem {l : List PoolEntry} {i : Nat} {e : PoolEntry}
    (h : entriesFind l i = some e) : e ∈ l := by
  induction l with
  | nil => exact absurd h (by simp [entriesFind])
  | cons x rest ih =>
      rw [entriesFind] at h
      by_cases hx : x.id = i
      · rw [if_pos hx] at h
        cases h
        exact List.mem_cons_self _ _
      · rw [if_neg hx] at h
        exact List.mem_cons_of_mem _ (ih h)

/-- Every stored `PoolEntry`'s unique key is its transaction's short id —
true of every entry that went through `insert_entry`. -/
def WfIds (pm : PoolMap) : Prop :=
  ∀ pe ∈ pm.entries, pe.id = pe.inner.tx.hash

instance (pm : PoolMap) : Decidable (WfIds pm) := by
  unfold WfIds
  infer_instance

/-- The observable identity of an entry: its status and transaction. -/
def obs (pm : PoolMap) (i : Nat) : Option (Status × Tx) :=
  (pm.getById i).map (fun pe => (pe.status, pe.inner.tx))

theorem obs_none_iff {pm : PoolMap} {i : Nat} : obs pm i = none ↔ pm.getById i = none := by
  unfold obs
  cases pm.getById i <;> simp

theorem obs_of_entries_eq {pm pm' : PoolMap} (h : pm'.entries = pm.entries) (i : Nat) :
    obs pm' i = obs pm i := by
  unfold obs PoolMap.getById
  rw [h]

theorem wfIds_of_entries_eq {pm pm' : PoolMap} (h : pm'.entries = pm.entries)
    (hwf : WfIds pm) : WfIds pm' := by
  intro pe hpe
  rw [h] at hpe
  exact hwf pe hpe

theorem foldl_entries_eq {α : Type} (f : PoolMap → α → PoolMap)
    (hf : ∀ q x, (f q x).entries = q.entries) :
    ∀ (l : List α) (q : PoolMap), (l.foldl f q).entries = q.entries := by
  intro l
  induction l with
  | nil => intro q; rfl
  | cons x rest ih =>
      intro q
      rw [List.foldl_cons, ih, hf]

theorem updateParentsForRemove_entries (pm : PoolMap) (id : Nat) :
    (pm.updateParentsForRemove id).entries = pm.entries := by
  unfold PoolMap.updateParentsForRemove
  cases assocLookup pm.links id with
  | none => rfl
  | some tl =>
      apply foldl_entries_eq
      intro q p
      rfl

theorem updateChildrenForRemove_entries (pm : PoolMap) (id : Nat) :
    (pm.updateChildrenForRemove id).entries = pm.entries := by
  unfold PoolMap.updateChildrenForRemove
  cases assocLookup pm.links id with
  | none => rfl
  | some tl =>
      apply foldl_entries_eq
      intro q p
      rfl

theorem unlinkStep_entries (q : PoolMap) (rid : Nat) :
    (unlinkStep q rid).entries = q.entries := by
  unfold unlinkStep
  rw [updateChildrenForRemove_entries, updateParentsForRemove_entries]

theorem updateDepsForRemove_entries (pm : PoolMap) (entry : TxEntry) :
    (pm.updateDepsForRemove entry).entries = pm.entries := by
  unfold PoolMap.updateDepsForRemove
  apply foldl_entries_eq
  intro q d
  rfl

theorem removeOutputStep_entries (q : PoolMap) (o : OutPoint) :
    (removeOutputStep q o).entries = q.entries := rfl

theorem removeInputStep_entries (q : PoolMap) (i : OutPoint) :
    (removeInputStep q i).entries = q.entries := rfl

theorem removeDepStep_entries (sid : Nat) (q : PoolMap) (d : OutPoint) :
    (removeDepStep sid q d).entries = q.entries := rfl

theorem removeEntryEdges_entries (pm : PoolMap) (entry : TxEntry) :
    (pm.removeEntryEdges entry).entries = pm.entries := by
  unfold PoolMap.removeEntryEdges
  dsimp only
  rw [foldl_entries_eq (removeDepStep entry.tx.shortId) (removeDepStep_entries entry.tx.shortId)]
  rw [foldl_entries_eq removeInputStep removeInputStep_entries]
  rw [foldl_entries_eq removeOutputStep removeOutputStep_entries]

theorem recordRelInputsStep_entries (sid : Nat) (q : PoolMap) (i : OutPoint) :
    (recordRelInputsStep sid q i).entries = q.entries := by
  unfold recordRelInputsStep
  cases assocLookup q.edges.outputs i <;> rfl

theorem recordRelOutputsStep_entries (st : PoolMap × List Nat) (o : OutPoint) :
    ((recordRelOutputsStep st o).1).entries = st.1.entries := by
  unfold recordRelOutputsStep
  dsimp only
  cases assocLookup st.1.edges.inputs o <;> rfl

theorem foldl_pair_entries_eq {α β : Type} (f : PoolMap × β → α → PoolMap × β)
    (hf : ∀ s x, ((f s x).1).entries = s.1.entries) :
    ∀ (l : List α) (s : PoolMap × β), ((l.foldl f s).1).entries = s.1.entries := by
  intro l
  induction l with
  | nil => intro s; rfl
  | cons x rest ih =>
      intro s
      rw [List.foldl_cons, ih, hf]

theorem accumulateAncestors_tx (pm : PoolMap) (entry : TxEntry) (ancestors : List Nat) :
    (pm.accumulateAncestors entry ancestors).tx = entry.tx := by
  unfold PoolMap.accumulateAncestors
  induction ancestors generalizing entry with
  | nil => rfl
  | cons a rest ih =>
      rw [List.foldl_cons]
      cases pm.getById a with
      | none => exact ih entry
      | some anc => exact ih (entry.addEntryWeight anc.inner)

/-- Removing an id and re-inserting an entry carrying the same id, status
and transaction is invisible to `obs` and keeps `WfIds`. -/
theorem insertRemove_obs (q : PoolMap) (e : PoolEntry) (child : TxEntry)
    (hid : child.tx.hash = e.id)
    (hget : q.getById e.id = some e)
    (hchildtx : child.tx = e.inner.tx)
    (hwf : WfIds q) :
    (∀ i, obs (PoolMap.insertEntry
        { q with entries := entriesRemove q.entries child.tx.shortId } child e.status) i =
      obs q i) ∧
    WfIds (PoolMap.insertEntry
      { q with entries := entriesRemove q.entries child.tx.shortId } child e.status) := by
  have hget' : entriesFind q.entries e.id = some e := hget
  have hid' : child.tx.shortId = e.id := hid
  constructor
  · intro i
    unfold obs PoolMap.getById PoolMap.insertEntry
    dsimp only
    rw [hid']
    by_cases hi : e.id = i
    · subst hi
      rw [entriesFind_append_none (entriesFind_entriesRemove_self _ _), hget']
      simp [entriesFind, hchildtx]
    · have hrm : entriesFind (entriesRemove q.entries e.id) i = entriesFind q.entries i :=
        entriesFind_entriesRemove_ne hi
      cases hf : entriesFind q.entries i with
      | some pe =>
          rw [entriesFind_append_some (by rw [hrm, hf])]
      | none =>
          rw [entriesFind_append_none (by rw [hrm, hf])]
          simp [entriesFind, hi]
  · intro pe hpe
    unfold PoolMap.insertEntry at hpe
    dsimp only at hpe
    rcases List.mem_append.mp hpe with h | h
    · exact hwf pe (mem_entriesRemove h)
    · simp at h
      rw [h]
      rfl

theorem updateDescStep_obs (parent : TxEntry) (op : EntryOp) (q : PoolMap) (descId : Nat)
    (hwf : WfIds q) :
    (∀ i, obs (updateDescStep parent op q descId) i = obs q i) ∧
    WfIds (updateDescStep parent op q descId) := by
  unfold updateDescStep
  cases hget : q.getById descId with
  | none => exact ⟨fun i => rfl, hwf⟩
  | some e =>
      have hidd : e.id = descId := getById_id hget
      have hmem : e ∈ q.entries := entriesFind_mem hget
      have hhash : e.id = e.inner.tx.hash := hwf e hmem
      subst hidd
      cases op with
      | remove =>
          dsimp only
          exact insertRemove_obs q e (e.inner.subEntryWeight parent) hhash.symm hget rfl hwf
      | add =>
          dsimp only
          exact insertRemove_obs q e (e.inner.addEntryWeight parent) hhash.symm hget rfl hwf

theorem foldl_obs_wf {α : Type} (f : PoolMap → α → PoolMap)
    (hf : ∀ q x, WfIds q → (∀ i, obs (f q x) i = obs q i) ∧ WfIds (f q x)) :
    ∀ (l : List α) (q : PoolMap), WfIds q →
      (∀ i, obs (l.foldl f q) i = obs q i) ∧ WfIds (l.foldl f q) := by
  intro l
  induction l with
  | nil => intro q hq; exact ⟨fun i => rfl, hq⟩
  | cons x rest ih =>
      intro q hq
      rw [List.foldl_cons]
      obtain ⟨ho, hw⟩ := hf q x hq
      obtain ⟨ho2, hw2⟩ := ih (f q x) hw
      exact ⟨fun i => (ho2 i).trans (ho i), hw2⟩

theorem updateDescendantsIndexKey_obs (pm : PoolMap) (parent : TxEntry) (op : EntryOp)
    (hwf : WfIds pm) :
    (∀ i, obs (pm.updateDescendantsIndexKey parent op) i = obs pm i) ∧
    WfIds (pm.updateDescendantsIndexKey parent op) := by
  unfold PoolMap.updateDescendantsIndexKey
  exact foldl_obs_wf (updateDescStep parent op)
    (fun q x hq => updateDescStep_obs parent op q x hq)
    (pm.calcDescendants parent.tx.shortId) pm hwf

/-- `update_descendants_index_key` seen from a pool that shares its
entries with `pm`. -/
theorem updateDIK_obs_pool (pm P : PoolMap) (hE : P.entries = pm.entries)
    (parent : TxEntry) (op : EntryOp) (hwf : WfIds pm) :
    (∀ i, obs (P.updateDescendantsIndexKey parent op) i = obs pm i) ∧
    WfIds (P.updateDescendantsIndexKey parent op) := by
  obtain ⟨ho, hw⟩ := updateDescendantsIndexKey_obs P parent op (wfIds_of_entries_eq hE hwf)
  exact ⟨fun i => (ho i).trans (obs_of_entries_eq hE i), hw⟩

theorem updateDescendantsFromDetached_obs (pm : PoolMap) (id : Nat) (children : List Nat)
    (hwf : WfIds pm) :
    (∀ i, obs (pm.updateDescendantsFromDetached id children) i = obs pm i) ∧
    WfIds (pm.updateDescendantsFromDetached id children) := by
  unfold PoolMap.updateDescendantsFromDetached
  cases pm.getById id with
  | none => exact ⟨fun i => rfl, hwf⟩
  | some entry =>
      dsimp only
      refine updateDIK_obs_pool pm _ ?_ entry.inner .add hwf
      rfl

theorem recordEntryRelations_obs (pm : PoolMap) (entry : TxEntry) (hwf : WfIds pm) :
    (∀ i, obs (pm.recordEntryRelations entry) i = obs pm i) ∧
    WfIds (pm.recordEntryRelations entry) := by
  unfold PoolMap.recordEntryRelations
  dsimp only
  have h1 : (entry.tx.inputs.foldl (recordRelInputsStep entry.tx.shortId) pm).entries =
      pm.entries :=
    foldl_entries_eq _ (recordRelInputsStep_entries entry.tx.shortId) _ _
  generalize hq1 : entry.tx.inputs.foldl (recordRelInputsStep entry.tx.shortId) pm = Q1 at h1 ⊢
  have h2 : (entry.tx.cellDeps.foldl (insertDepsStep entry.tx.shortId) Q1).entries =
      Q1.entries :=
    foldl_entries_eq (insertDepsStep entry.tx.shortId) (fun q d => rfl) _ _
  generalize hq2 : entry.tx.cellDeps.foldl (insertDepsStep entry.tx.shortId) Q1 = Q2 at h2 ⊢
  have h3 : ((entry.tx.outputPts.foldl recordRelOutputsStep (Q2, [])).1).entries =
      Q2.entries :=
    foldl_pair_entries_eq _ recordRelOutputsStep_entries _ _
  generalize hq3 : entry.tx.outputPts.foldl recordRelOutputsStep (Q2, []) = S3 at h3 ⊢
  have h4 : (recordHeaderDeps entry.tx.shortId entry.tx.headerDeps S3.1).entries =
      S3.1.entries := by
    unfold recordHeaderDeps
    split <;> rfl
  generalize hq4 : recordHeaderDeps entry.tx.shortId entry.tx.headerDeps S3.1 = Q4 at h4 ⊢
  have hE : Q4.entries = pm.entries := by rw [h4, h3, h2, h1]
  by_cases hch : S3.2 = []
  · rw [if_pos hch]
    exact ⟨obs_of_entries_eq hE, wfIds_of_entries_eq hE hwf⟩
  · rw [if_neg hch]
    obtain ⟨ho, hw⟩ := updateDescendantsFromDetached_obs Q4 entry.tx.shortId S3.2
      (wfIds_of_entries_eq hE hwf)
    exact ⟨fun i => (ho i).trans (obs_of_entries_eq hE i), hw⟩

/-- `record_entry_links` on a non-`Proposed` status always succeeds,
leaves the stored entries untouched, and preserves the new entry's
transaction. -/
theorem recordEntryLinks_pending_ok (pm : PoolMap) (e : TxEntry) :
    ∃ pm1 e1, pm.recordEntryLinks e .pending = .ok (pm1, e1) ∧
      pm1.entries = pm.entries ∧ e1.tx = e.tx := by
  unfold PoolMap.recordEntryLinks
  rw [if_neg (by simp : ¬ (Status.pending = Status.proposed ∧
    pm.maxAncestorsCount < (pm.accumulateAncestors e
      (calcRelationIds pm.links (pm.entryParents e) .parents)).ancestorsCount))]
  exact ⟨_, _, rfl, rfl, accumulateAncestors_tx pm e _⟩

/-- `add_entry` of a fresh entry with status `Pending`: every other id keeps
its observable identity, the new id appears as `Pending` with the given
transaction, and the id/hash invariant is preserved. -/
theorem addEntryD_pending_obs (pm : PoolMap) (e : TxEntry)
    (hwf : WfIds pm) (hfresh : pm.getById e.tx.hash = none) :
    (∀ i, i ≠ e.tx.hash → obs (pm.addEntryD e .pending) i = obs pm i) ∧
    obs (pm.addEntryD e .pending) e.tx.hash = some (.pending, e.tx) ∧
    WfIds (pm.addEntryD e .pending) := by
  obtain ⟨pm1, e1, hok, hE1, htx⟩ := recordEntryLinks_pending_ok pm e
  have haddD : pm.addEntryD e .pending =
      (pm1.insertEntry e1 .pending).recordEntryRelations e1 := by
    unfold PoolMap.addEntryD PoolMap.addEntry
    rw [show pm.getById e.tx.shortId = none from hfresh, hok]
    rfl
  have hw2 : WfIds (pm1.insertEntry e1 .pending) := by
    intro pe hpe
    unfold PoolMap.insertEntry at hpe
    dsimp only at hpe
    rcases List.mem_append.mp hpe with h | h
    · rw [hE1] at h
      exact hwf pe h
    · simp at h
      rw [h]
      rfl
  obtain ⟨horel, hwrel⟩ := recordEntryRelations_obs (pm1.insertEntry e1 .pending) e1 hw2
  rw [haddD]
  refine ⟨?_, ?_, hwrel⟩
  · intro i hi
    rw [horel i]
    unfold obs PoolMap.getById PoolMap.insertEntry
    dsimp only
    rw [hE1]
    cases hf : entriesFind pm.entries i with
    | some pe => rw [entriesFind_append_some hf]
    | none =>
        rw [entriesFind_append_none hf]
        have hne : e1.tx.shortId ≠ i := by
          show e1.tx.hash ≠ i
          rw [htx]
          exact fun hc => hi hc.symm
        simp [entriesFind, hne]
  · rw [horel e.tx.hash]
    unfold obs PoolMap.getById PoolMap.insertEntry
    dsimp only
    rw [hE1]
    rw [entriesFind_append_none (show entriesFind pm.entries e.tx.hash = none from hfresh)]
    have hrec : e1.tx.shortId = e.tx.hash := by
      show e1.tx.hash = e.tx.hash
      rw [htx]
    simp [entriesFind, hrec, htx, Tx.shortId]

/-- The re-admission fold of `remove_by_detached_proposal`: every re-added
transaction ends `Pending`, other ids keep their observable identity. -/
theorem readdFold_obs :
    ∀ (ents : List TxEntry) (q : PoolMap),
      WfIds q →
      (ents.map (fun e => e.tx.hash)).Nodup →
      (∀ e ∈ ents, q.getById e.tx.hash = none) →
      (∀ e ∈ ents, obs (ents.foldl readdStep q) e.tx.hash = some (.pending, e.tx)) ∧
      (∀ i, (∀ e ∈ ents, e.tx.hash ≠ i) → obs (ents.foldl readdStep q) i = obs q i) ∧
      WfIds (ents.foldl readdStep q) := by
  intro ents
  induction ents with
  | nil =>
      intro q hwf _ _
      exact ⟨by simp, fun i _ => rfl, hwf⟩
  | cons ent rest ih =>
      intro q hwf hnd habs
      rw [List.foldl_cons]
      have hfresh : q.getById (ent.resetStatisticState).tx.hash = none :=
        habs ent (List.mem_cons_self _ _)
      obtain ⟨hoth, hnew, hw1⟩ := addEntryD_pending_obs q ent.resetStatisticState hwf hfresh
      have hstep : readdStep q ent = q.addEntryD ent.resetStatisticState .pending := rfl
      rw [hstep]
      have hndrest : (rest.map (fun e => e.tx.hash)).Nodup := by
        simp only [List.map_cons, List.nodup_cons] at hnd
        exact hnd.2
      have hheadne : ∀ e ∈ rest, e.tx.hash ≠ ent.tx.hash := by
        intro e he hc
        simp only [List.map_cons, List.nodup_cons] at hnd
        exact hnd.1 (hc ▸ List.mem_map_of_mem (fun e => e.tx.hash) he)
      have habs' : ∀ e ∈ rest,
          (q.addEntryD ent.resetStatisticState .pending).getById e.tx.hash = none := by
        intro e he
        rw [← obs_none_iff]
        rw [hoth e.tx.hash (hheadne e he)]
        rw [obs_none_iff]
        exact habs e (List.mem_cons_of_mem _ he)
      obtain ⟨h1, h2, h3⟩ := ih (q.addEntryD ent.resetStatisticState .pending) hw1 hndrest habs'
      refine ⟨?_, ?_, h3⟩
      · intro e he
        rcases List.mem_cons.mp he with he | he
        · subst he
          rw [h2 e.tx.hash (fun e' he' => hheadne e' he')]
          exact hnew
        · exact h1 e he
      · intro i hni
        rw [h2 i (fun e he => hni e (List.mem_cons_of_mem _ he))]
        exact hoth i (Ne.symm (hni ent (List.mem_cons_self _ _)))

/-- The batch-removal fold of `remove_entry_and_descendants`: all listed
ids disappear, other ids are untouched, and the removed entries' hashes
are exactly the listed ids, in order. -/
theorem removeFold_spec :
    ∀ (rids : List Nat) (q : PoolMap) (acc : List TxEntry),
      WfIds q → rids.Nodup →
      (∀ r ∈ rids, (q.getById r).isSome) →
      (∀ r ∈ rids, ((rids.foldl removeUncheckedStep (q, acc)).1).getById r = none) ∧
      (∀ i, i ∉ rids →
        ((rids.foldl removeUncheckedStep (q, acc)).1).getById i = q.getById i) ∧
      ((rids.foldl removeUncheckedStep (q, acc)).2).map (fun e => e.tx.hash) =
        (acc.map (fun e => e.tx.hash)) ++ rids ∧
      WfIds (rids.foldl removeUncheckedStep (q, acc)).1 := by
  intro rids
  induction rids with
  | nil =>
      intro q acc hwf _ _
      exact ⟨by simp, fun i _ => rfl, by simp, hwf⟩
  | cons rid rest ih =>
      intro q acc hwf hnd hpres
      obtain ⟨e, hge⟩ := Option.isSome_iff_exists.mp (hpres rid (List.mem_cons_self _ _))
      have hge' : entriesFind q.entries rid = some e := hge
      have heid : e.id = rid := getById_id hge
      have hehash : e.inner.tx.hash = rid := by
        rw [← hwf e (entriesFind_mem hge')]
        exact heid
      rw [List.foldl_cons]
      have hstep : removeUncheckedStep (q, acc) rid =
          ({ PoolMap.updateDepsForRemove
                { q with entries := entriesRemove q.entries rid } e.inner with
              links := assocRemove (PoolMap.updateDepsForRemove
                { q with entries := entriesRemove q.entries rid } e.inner).links rid },
            acc ++ [e.inner]) := by
        unfold removeUncheckedStep PoolMap.removeUnchecked
        rw [hge]
      rw [hstep]
      have hQE : ({ PoolMap.updateDepsForRemove
            { q with entries := entriesRemove q.entries rid } e.inner with
          links := assocRemove (PoolMap.updateDepsForRemove
            { q with entries := entriesRemove q.entries rid } e.inner).links rid } :
          PoolMap).entries = entriesRemove q.entries rid := by
        rw [show ∀ (P : PoolMap) ls, ({ P with links := ls } : PoolMap).entries = P.entries
          from fun P ls => rfl]
        rw [updateDepsForRemove_entries]
      have hQself : ({ PoolMap.updateDepsForRemove
            { q with entries := entriesRemove q.entries rid } e.inner with
          links := assocRemove (PoolMap.updateDepsForRemove
            { q with entries := entriesRemove q.entries rid } e.inner).links rid } :
          PoolMap).getById rid = none := by
        unfold PoolMap.getById
        rw [hQE]
        exact entriesFind_entriesRemove_self _ _
      have hQne : ∀ i, i ≠ rid → ({ PoolMap.updateDepsForRemove
            { q with entries := entriesRemove q.entries rid } e.inner with
          links := assocRemove (PoolMap.updateDepsForRemove
            { q with entries := entriesRemove q.entries rid } e.inner).links rid } :
          PoolMap).getById i = q.getById i := by
        intro i hi
        unfold PoolMap.getById
        rw [hQE]
        exact entriesFind_entriesRemove_ne (fun hc => hi hc.symm)
      have hQwf : WfIds ({ PoolMap.updateDepsForRemove
            { q with entries := entriesRemove q.entries rid } e.inner with
          links := assocRemove (PoolMap.updateDepsForRemove
            { q with entries := entriesRemove q.entries rid } e.inner).links rid } :
          PoolMap) := by
        intro pe hpe
        rw [hQE] at hpe
        exact hwf pe (mem_entriesRemove hpe)
      have hndrest : rest.Nodup := (List.nodup_cons.mp hnd).2
      have hridrest : rid ∉ rest := (List.nodup_cons.mp hnd).1
      have hpres' : ∀ r ∈ rest, (({ PoolMap.updateDepsForRemove
            { q with entries := entriesRemove q.entries rid } e.inner with
          links := assocRemove (PoolMap.updateDepsForRemove
            { q with entries := entriesRemove q.entries rid } e.inner).links rid } :
          PoolMap).getById r).isSome := by
        intro r hr
        rw [hQne r (fun hc => hridrest (hc ▸ hr))]
        exact hpres r (List.mem_cons_of_mem _ hr)
      obtain ⟨ha, hb, hc, hd⟩ := ih _ (acc ++ [e.inner]) hQwf hndrest hpres'
      refine ⟨?_, ?_, ?_, hd⟩
      · intro r hr
        rcases List.mem_cons.mp hr with hr | hr
        · subst hr
          rw [hb r hridrest]
          exact hQself
        · exact ha r hr
      · intro i hi
        rw [hb i (fun hc => hi (List.mem_cons_of_mem _ hc))]
        exact hQne i (fun hc => hi (hc ▸ List.mem_cons_self _ _))
      · rw [hc]
        simp [hehash]

theorem calcRelationFuel_nodup (links : Links) (rel : LinkRel) :
    ∀ (fuel : Nat) (stage acc : List Nat), acc.Nodup →
      (calcRelationFuel links rel fuel stage acc).Nodup := by
  intro fuel
  induction fuel with
  | zero => intro stage acc h; exact h
  | succ n ih =>
      intro stage acc h
      cases stage with
      | nil => exact h
      | cons id rest =>
          rw [calcRelationFuel]
          exact ih _ _ (natInsert_nodup h id)

theorem calcDescendants_nodup (pm : PoolMap) (id : Nat) :
    (pm.calcDescendants id).Nodup := by
  unfold PoolMap.calcDescendants linksCalcDescendants calcRelationIds
  exact calcRelationFuel_nodup _ _ _ _ [] List.nodup_nil

theorem pairwise_of_split {α : Type} {R : α → α → Prop} {l1 l2 l3 : List α} {a b : α}
    (h : (l1 ++ a :: (l2 ++ b :: l3)).Pairwise R) : R a b := by
  have h2 : (a :: (l2 ++ b :: l3)).Pairwise R := (List.pairwise_append.mp h).2.1
  exact (List.pairwise_cons.mp h2).1 b (by simp)

/-- `remove_entry_and_descendants` under the consistency hypotheses: the
target and its descendants disappear from the pool, the removed entries'
hashes are exactly those ids in order, and `WfIds` is preserved. -/
theorem removeEAD_spec (pm : PoolMap) (id : Nat)
    (hwf : WfIds pm)
    (hnodup : (id :: pm.calcDescendants id).Nodup)
    (hpres : ∀ r ∈ id :: pm.calcDescendants id, (pm.getById r).isSome) :
    (∀ r ∈ id :: pm.calcDescendants id,
      ((pm.removeEntryAndDescendants id).1).getById r = none) ∧
    ((pm.removeEntryAndDescendants id).2).map (fun e => e.tx.hash) =
      id :: pm.calcDescendants id ∧
    WfIds (pm.removeEntryAndDescendants id).1 := by
  unfold PoolMap.removeEntryAndDescendants
  dsimp only
  have hE1 : ((id :: pm.calcDescendants id).foldl unlinkStep pm).entries = pm.entries :=
    foldl_entries_eq unlinkStep unlinkStep_entries _ _
  generalize hq1 : (id :: pm.calcDescendants id).foldl unlinkStep pm = P1 at hE1 ⊢
  have hwf1 : WfIds P1 := wfIds_of_entries_eq hE1 hwf
  have hpres1 : ∀ r ∈ id :: pm.calcDescendants id, (P1.getById r).isSome := by
    intro r hr
    have hsame : P1.getById r = pm.getById r := by
      unfold PoolMap.getById
      rw [hE1]
    rw [hsame]
    exact hpres r hr
  obtain ⟨ha, hb, hc, hd⟩ :=
    removeFold_spec (id :: pm.calcDescendants id) P1 [] hwf1 hnodup hpres1
  generalize hq2 :
    (id :: pm.calcDescendants id).foldl removeUncheckedStep (P1, []) = S at ha hb hc hd ⊢
  have hE3 : (S.2.foldl (fun (q : PoolMap) e => q.removeEntryEdges e) S.1).entries =
      S.1.entries :=
    foldl_entries_eq _ (fun q e => removeEntryEdges_entries q e) _ _
  refine ⟨?_, by simpa using hc, wfIds_of_entries_eq hE3 hd⟩
  intro r hr
  have hsame : (S.2.foldl (fun (q : PoolMap) e => q.removeEntryEdges e) S.1).getById r =
      S.1.getById r := by
    unfold PoolMap.getById
    rw [hE3]
  rw [hsame]
  exact ha r hr

/-- C5: `remove_by_detached_proposal` leaves a `Pending` target untouched;
otherwise — on a pool whose id/hash index is consistent, whose descendant
set does not contain the target and is fully backed by entries — the
target and all of its descendants are present with status `Pending`
afterwards, and the re-admission order (ascending stored
`ancestors_count`) never re-adds a descendant before one of its ancestors
provided the stored counts are strictly monotone along ancestry. -/
theorem c5_remove_by_detached_proposal (pm : PoolMap) (id : Nat) :
    ((pm.getById id).map (fun e => e.status) = some .pending →
      removeByDetachedProposal pm [id] = pm) ∧
    ((pm.getById id).isSome →
      (pm.getById id).map (fun e => e.status) ≠ some .pending →
      WfIds pm →
      id ∉ pm.calcDescendants id →
      (∀ r ∈ pm.calcDescendants id, (pm.getById r).isSome) →
      ∀ r ∈ id :: pm.calcDescendants id, ∃ pe',
        (removeByDetachedProposal pm [id]).getById r = some pe' ∧
        pe'.status = .pending ∧ pe'.inner.tx.hash = r) ∧
    ((∀ e1 ∈ (pm.removeEntryAndDescendants id).2,
      ∀ e2 ∈ (pm.removeEntryAndDescendants id).2,
        e2.tx.hash ∈ pm.calcDescendants e1.tx.hash →
        e1.ancestorsCount < e2.ancestorsCount) →
      ∀ l1 e2 l2 e1 l3,
        sortByAncCount (pm.removeEntryAndDescendants id).2 = l1 ++ e2 :: (l2 ++ e1 :: l3) →
        e2.tx.hash ∉ pm.calcDescendants e1.tx.hash) := by
  refine ⟨?_, ?_, ?_⟩
  · intro hpend
    cases hget : pm.getById id with
    | none => rw [hget] at hpend; exact absurd hpend (by simp)
    | some pe =>
        rw [hget] at hpend
        have hst : pe.status = .pending := by
          have hps : some pe.status = some Status.pending := hpend
          exact Option.some_inj.mp hps
        unfold removeByDetachedProposal
        simp only [List.foldl_cons, List.foldl_nil]
        rw [hget]
        dsimp only
        rw [if_pos hst]
  · intro hsome hnp hwf hnotin hpresd
    obtain ⟨pe, hget⟩ := Option.isSome_iff_exists.mp hsome
    have hst : pe.status ≠ .pending := by
      intro hc
      apply hnp
      rw [hget]
      show some pe.status = some Status.pending
      rw [hc]
    have hnodup : (id :: pm.calcDescendants id).Nodup :=
      List.nodup_cons.mpr ⟨hnotin, calcDescendants_nodup pm id⟩
    have hpresall : ∀ r ∈ id :: pm.calcDescendants id, (pm.getById r).isSome := by
      intro r hr
      rcases List.mem_cons.mp hr with hr | hr
      · rw [hr, hget]; rfl
      · exact hpresd r hr
    obtain ⟨ha, hmap, hwfR⟩ := removeEAD_spec pm id hwf hnodup hpresall
    have hfold : removeByDetachedProposal pm [id] =
        (sortByAncCount (pm.removeEntryAndDescendants id).2).foldl readdStep
          (pm.removeEntryAndDescendants id).1 := by
      unfold removeByDetachedProposal
      simp only [List.foldl_cons, List.foldl_nil]
      rw [hget]
      dsimp only
      rw [if_neg hst]
    have hperm : List.Perm (sortByAncCount (pm.removeEntryAndDescendants id).2)
        (pm.removeEntryAndDescendants id).2 :=
      List.perm_insertionSort ancCountLe _
    have hpermmap : List.Perm ((sortByAncCount (pm.removeEntryAndDescendants id).2).map
        (fun e => e.tx.hash)) (id :: pm.calcDescendants id) := by
      rw [← hmap]
      exact hperm.map _
    have hndsorted : ((sortByAncCount (pm.removeEntryAndDescendants id).2).map
        (fun e => e.tx.hash)).Nodup := hpermmap.nodup_iff.mpr hnodup
    have habs : ∀ e ∈ sortByAncCount (pm.removeEntryAndDescendants id).2,
        ((pm.removeEntryAndDescendants id).1).getById e.tx.hash = none := by
      intro e he
      apply ha
      rw [← hmap]
      exact List.mem_map_of_mem _ (hperm.mem_iff.mp he)
    obtain ⟨h1, _, h3⟩ := readdFold_obs (sortByAncCount (pm.removeEntryAndDescendants id).2)
      (pm.removeEntryAndDescendants id).1 hwfR hndsorted habs
    intro r hr
    have hrmem : r ∈ (sortByAncCount (pm.removeEntryAndDescendants id).2).map
        (fun e => e.tx.hash) := hpermmap.mem_iff.mpr hr
    obtain ⟨ent, hent, henthash⟩ := List.mem_map.mp hrmem
    have hobs := h1 ent hent
    rw [henthash] at hobs
    rw [hfold]
    unfold obs at hobs
    cases hfind : ((sortByAncCount (pm.removeEntryAndDescendants id).2).foldl readdStep
        (pm.removeEntryAndDescendants id).1).getById r with
    | none => rw [hfind] at hobs; exact absurd hobs (by simp)
    | some pe' =>
        rw [hfind] at hobs
        have hobs2 : (pe'.status, pe'.inner.tx) = (Status.pending, ent.tx) :=
          Option.some_inj.mp hobs
        refine ⟨pe', rfl, ?_, ?_⟩
        · rw [show pe'.status = (pe'.status, pe'.inner.tx).1 from rfl, hobs2]
        · rw [show pe'.inner.tx = (pe'.status, pe'.inner.tx).2 from rfl, hobs2]
          rw [← henthash]
  · intro hmono l1 e2 l2 e1 l3 hsplit hdesc
    have hsorted : List.Pairwise ancCountLe
        (sortByAncCount (pm.removeEntryAndDescendants id).2) :=
      List.sorted_insertionSort ancCountLe _
    rw [hsplit] at hsorted
    have hle : ancCountLe e2 e1 := pairwise_of_split hsorted
    have hperm : List.Perm (sortByAncCount (pm.removeEntryAndDescendants id).2)
        (pm.removeEntryAndDescendants id).2 :=
      List.perm_insertionSort ancCountLe _
    have he2mem : e2 ∈ (pm.removeEntryAndDescendants id).2 := by
      apply hperm.mem_iff.mp
      rw [hsplit]
      simp
    have he1mem : e1 ∈ (pm.removeEntryAndDescendants id).2 := by
      apply hperm.mem_iff.mp
      rw [hsplit]
      simp
    have := hmono e1 he1mem e2 he2mem hdesc
    unfold ancCountLe at hle
    omega

def txC5a : Tx := ⟨31, [⟨600, 0⟩], 1, [], []⟩
def txC5b : Tx := ⟨32, [⟨31, 0⟩], 1, [], []⟩
def txC5c : Tx := ⟨33, [⟨32, 0⟩], 1, [], []⟩

def poolC5 : PoolMap :=
  (((PoolMap.new 125).addEntryD (TxEntry.mkSelf txC5a 1 10 5 0) .proposed).addEntryD
      (TxEntry.mkSelf txC5b 1 10 5 1) .proposed).addEntryD
    (TxEntry.mkSelf txC5c 1 10 5 2) .pending

theorem c5_remove_by_detached_proposal_witness :
    removeByDetachedProposal poolC5 [33] = poolC5 ∧
    ∃ pe', (removeByDetachedProposal poolC5 [31]).getById 32 = some pe' ∧
      pe'.status = Status.pending ∧ pe'.inner.tx.hash = 32 :=
  ⟨(c5_remove_by_detached_proposal poolC5 33).1 (by decide),
   (c5_remove_by_detached_proposal poolC5 31).2.1 (by decide) (by decide) (by decide)
     (by decide) (by decide) 32 (by decide)⟩
